import Mathlib

/-!
Verification of the hcga feature-extraction engine and its embedded
asynchronous fluid-communities partitioner.

The definitions below are shallow embeddings of the Python source:

* `hcga/feature_extraction.py` — `extract`, `feature_extraction`,
  `compute_all_features`, `gather_features`, `filter_features`;
* `hcga/Operations/communities_asyn_fluid.py` — `asyn_fluidc`;
* `hcga/features/spectrum.py` — the module-level `lru_cache` memoization.

Python dicts are embedded as insertion-ordered association lists, Python
floats that only ever hold exactly representable quantities are embedded as
rationals, and raised exceptions are embedded as `Except` errors.  Parts of
the repository that are referenced but not present in the sources
(`hcga/feature_class.py`, the semantics of third-party library calls) are
modelled from the specification and are marked as such in their doc
comments.
-/

deriving instance DecidableEq for Except

namespace Hcga

/-- A cell value of the feature matrix: a finite rational, `+inf`, `-inf`,
or the not-a-number sentinel (`np.nan`). -/
inductive Value
  | fin (q : ℚ)
  | pinf
  | ninf
  | nan
deriving DecidableEq, Repr

/-- Lookup in an insertion-ordered association list (Python `d[k]` read /
`k in d`): the value of the first entry with the given key. -/
def alget {α β : Type} [DecidableEq α] (l : List (α × β)) (a : α) : Option β :=
  (l.find? (fun p => p.1 = a)).map (fun p => p.2)

/-- Update in an insertion-ordered association list (Python `d[k] = v`):
replace the value in place if the key is present, otherwise append the new
entry at the end, as Python dicts do. -/
def alset {α β : Type} [DecidableEq α] (l : List (α × β)) (a : α) (b : β) :
    List (α × β) :=
  if (alget l a).isSome then
    l.map (fun p => if p.1 = a then (a, b) else p)
  else
    l ++ [(a, b)]

/-! Rational arithmetic written through `Rat.divInt` so that closed runs of
the embedded algorithms evaluate inside the kernel (the typeclass rational
operations are irreducible).  Each helper is proved equal to the standard
operation it implements. -/

/-- Addition on `ℚ` by the cross-multiplication formula. -/
def qAdd (a b : ℚ) : ℚ :=
  Rat.divInt (a.num * (b.den : ℤ) + b.num * (a.den : ℤ)) ((a.den : ℤ) * (b.den : ℤ))

/-- Subtraction on `ℚ` by the cross-multiplication formula. -/
def qSub (a b : ℚ) : ℚ :=
  Rat.divInt (a.num * (b.den : ℤ) - b.num * (a.den : ℤ)) ((a.den : ℤ) * (b.den : ℤ))

/-- Division on `ℚ` by the cross-multiplication formula (0 when `b = 0`,
matching the `ℚ` convention; the embedding never divides by zero without
first raising the embedded `ZeroDivisionError`). -/
def qDiv (a b : ℚ) : ℚ :=
  Rat.divInt (a.num * (b.den : ℤ)) ((a.den : ℤ) * b.num)

/-- The strict order on `ℚ` by cross multiplication. -/
def qLt (a b : ℚ) : Bool :=
  a.num * (b.den : ℤ) < b.num * (a.den : ℤ)

/-- Binary maximum on `ℚ` (Python `max` over a nonempty iterable folds
this). -/
def qMax (a b : ℚ) : ℚ :=
  if qLt a b then b else a

theorem qAdd_eq (a b : ℚ) : qAdd a b = a + b := by
  rw [qAdd, Rat.add_def', Rat.mkRat_eq_divInt]
  push_cast
  ring_nf

theorem qSub_eq (a b : ℚ) : qSub a b = a - b := by
  rw [sub_eq_add_neg, ← qAdd_eq, qAdd, qSub]
  have hnum : (-b).num = -b.num := Rat.neg_num b
  have hden : (-b).den = b.den := Rat.neg_den b
  rw [hnum, hden]
  ring_nf

theorem qDiv_eq (a b : ℚ) : qDiv a b = a / b := by
  rcases eq_or_ne b 0 with rfl | hb
  · have h0 : (0 : ℚ).num = 0 := rfl
    rw [qDiv, h0, mul_zero, Rat.divInt_zero, div_zero]
  · have hbnum : (b.num : ℚ) ≠ 0 := by
      exact_mod_cast Rat.num_ne_zero.mpr hb
    have had : ((a.den : ℚ)) ≠ 0 := by
      exact_mod_cast a.den_ne_zero
    have hbd : ((b.den : ℚ)) ≠ 0 := by
      exact_mod_cast b.den_ne_zero
    have hna : ((a.num : ℚ)) = a * a.den := (div_eq_iff had).mp (Rat.num_div_den a)
    have hnb : ((b.num : ℚ)) = b * b.den := (div_eq_iff hbd).mp (Rat.num_div_den b)
    rw [qDiv, Rat.divInt_eq_div]
    push_cast
    rw [div_eq_div_iff (by rw [hnb]; exact mul_ne_zero had (mul_ne_zero hb hbd)) hb,
      hna, hnb]
    ring

theorem qLt_iff (a b : ℚ) : qLt a b = true ↔ a < b := by
  have hda : (0 : ℚ) < ((a.den : ℚ)) := by
    exact_mod_cast a.den_pos
  have hdb : (0 : ℚ) < ((b.den : ℚ)) := by
    exact_mod_cast b.den_pos
  rw [qLt, decide_eq_true_eq]
  constructor
  · intro h
    have h2 : ((a.num : ℚ)) * b.den < ((b.num : ℚ)) * a.den := by
      exact_mod_cast h
    rw [← Rat.num_div_den a, ← Rat.num_div_den b, div_lt_div_iff₀ hda hdb]
    exact h2
  · intro h
    have h2 : ((a.num : ℚ)) * b.den < ((b.num : ℚ)) * a.den := by
      rw [← div_lt_div_iff₀ hda hdb, Rat.num_div_den a, Rat.num_div_den b]
      exact h
    exact_mod_cast h2

theorem qMax_eq (a b : ℚ) : qMax a b = max a b := by
  rw [qMax, max_def]
  rcases lt_trichotomy a b with h | h | h
  · rw [if_pos ((qLt_iff a b).mpr h), if_pos h.le]
  · subst h
    simp [qLt_iff]
  · rw [if_neg (by simp [qLt_iff]; exact h.le), if_neg (by exact not_le.mpr h)]

/-- Effectful map over a list, stopping at the first error (the semantics of
a Python `for` loop whose body may raise). -/
def mapE {ε α β : Type} (f : α → Except ε β) : List α → Except ε (List β)
  | [] => .ok []
  | a :: l =>
    match f a with
    | .error e => .error e
    | .ok b =>
      match mapE f l with
      | .error e => .error e
      | .ok bs => .ok (b :: bs)

/-! ## The Filter (`filter_features`, feature_extraction.py lines 120-130) -/

/-- A pandas `DataFrame` restricted to what the source uses: an ordered list
of named columns, each an ordered list of cell values. -/
abbrev Frame : Type := List (String × List Value)

/-- Embeds `features.replace([np.inf, -np.inf], np.nan)`: the frame with
every infinity replaced by the NaN sentinel.  NOTE: at its call site in
`filter_features` the source discards the returned frame (the call is not
`inplace` and not assigned), which the embedding mirrors. -/
def replaceInfNan (df : Frame) : Frame :=
  df.map (fun c =>
    (c.1, c.2.map (fun v =>
      match v with
      | Value.pinf => Value.nan
      | Value.ninf => Value.nan
      | v => v)))

/-- Embeds `features.dropna(axis=1)` (default `how .. any`): keep exactly
the columns that contain no NaN cell. -/
def dropnaCols (df : Frame) : Frame :=
  df.filter (fun c => !(c.2.contains Value.nan))

/-- Embeds `pandas.Series.std() == 0` for a column, under the library's
default semantics: NaN cells are skipped (`skipna`), a remaining infinity
makes the standard deviation NaN (so never `== 0`), fewer than two remaining
cells give NaN (`ddof` is 1), and otherwise the sample standard deviation of
exact values is zero iff all remaining cells are equal. -/
def seriesStdIsZero (col : List Value) : Bool :=
  let xs := col.filter (fun v => !(v == Value.nan))
  if xs.any (fun v => v == Value.pinf || v == Value.ninf) then false
  else
    match xs with
    | [] => false
    | [_] => false
    | a :: rest => rest.all (fun v => v == a)

/-- Embeds `filter_features` (feature_extraction.py lines 120-130): the
`replace` result is computed and *discarded* exactly as in the source, then
columns containing NaN are dropped, then columns with zero standard
deviation are dropped. -/
def filter_features (features : Frame) : Frame :=
  let _ := replaceInfNan features
  let valid_features := dropnaCols features
  valid_features.filter (fun c => !(seriesStdIsZero c.2))

/-! ## Feature classes and the Dispatcher
    (`feature_extraction`, `compute_all_features`, feature_extraction.py
    lines 51-95) -/

/-- A feature class as the engine sees it, over an opaque graph type `γ`:
its registry-unique shortname, the list of feature names it declares (the
class variables created by the canary run in `get_list_feature_classes`),
and its `compute_features` body, which either produces the name/value
records or raises. -/
structure FeatClass (γ : Type) where
  shortname : String
  expected : List String
  compute : γ → Except String (List (String × Value))

/-- Modelled from the spec: `FeatureClass.update_features`
(`hcga/feature_class.py` is imported by the sources but is not under
`src/`).  Per spec section 4.4, if the class's `compute_features` raises for
this graph, the class's entire set of expected feature names is filled with
the not-a-number sentinel and the exception is absorbed; otherwise the
computed records are stored.  Either way the class's block is written into
the accumulated per-graph bundle under its shortname. -/
def update_features {γ : Type} (c : FeatClass γ) (graph : γ)
    (all_features : List (String × List (String × Value))) :
    List (String × List (String × Value)) :=
  match c.compute graph with
  | .ok kvs => alset all_features c.shortname kvs
  | .error _ => alset all_features c.shortname
      (c.expected.map (fun n => (n, Value.nan)))

/-- Embeds `feature_extraction` (feature_extraction.py lines 61-80, without
the optional runtime bookkeeping): fold `update_features` over the active
classes starting from an empty bundle. -/
def feature_extraction {γ : Type} (graph : γ)
    (list_feature_classes : List (FeatClass γ)) :
    List (String × List (String × Value)) :=
  list_feature_classes.foldl
    (fun all_features c => update_features c graph all_features) []

/-- Embeds `Worker.__call__` (feature_extraction.py lines 51-58). -/
def workerCall {γ : Type} (list_feature_classes : List (FeatClass γ))
    (graph : γ) : List (String × List (String × Value)) :=
  feature_extraction graph list_feature_classes

/-- Modelled from the spec: the semantics of `multiprocessing.Pool.imap`
(third-party library).  Workers complete jobs in an arbitrary order, here an
explicit list `σ` of input indices in completion order; each completed job
is recorded with its input index, and results are yielded in input order by
looking each index up among the completed jobs. -/
def imapModel {α β : Type} (f : α → β) (xs : List α) (σ : List Nat) :
    List β :=
  let completed := σ.filterMap (fun i => (xs.get? i).map (fun x => (i, f x)))
  (List.range xs.length).filterMap (fun i => alget completed i)

/-- Embeds `compute_all_features` (feature_extraction.py lines 83-95):
sequential `map` for one worker, `pool.imap` (with completion order `σ`)
otherwise. -/
def compute_all_features {γ : Type} (graphs : List γ)
    (list_feature_classes : List (FeatClass γ)) (n_workers : Nat)
    (σ : List Nat) : List (List (String × List (String × Value))) :=
  if n_workers = 1 then
    graphs.map (workerCall list_feature_classes)
  else
    imapModel (workerCall list_feature_classes) graphs σ

/-! ## The Aggregator (`gather_features`, feature_extraction.py
    lines 98-117) -/

/-- Per-column metadata, reduced to the fields the embedded code reads. -/
structure FeatureInfo where
  feature_name : String
  feature_class : String
deriving DecidableEq, Repr

/-- Modelled from the spec: `FeatureClass.get_feature_info`
(`hcga/feature_class.py` is not under `src/`).  It returns the column
metadata for one feature of a class; the column name is made unique across
the registry by prefixing the class shortname. -/
def get_feature_info {γ : Type} (c : FeatClass γ) (feature : String) :
    FeatureInfo :=
  { feature_name := c.shortname ++ "_" ++ feature, feature_class := c.shortname }

/-- Embeds the innermost loop of `gather_features`: the column of values of
one feature of one class, read as `all_features_raw[i][shortname][feature]`
over all graphs `i` in input order.  A missing key raises `KeyError`. -/
def gatherColumn (all_features_raw : List (List (String × List (String × Value))))
    (shortname feature : String) : Except String (List Value) :=
  mapE (fun bundle =>
    match alget bundle shortname with
    | none => .error "KeyError"
    | some d =>
      match alget d feature with
      | none => .error "KeyError"
      | some v => .ok v) all_features_raw

/-- Embeds the per-class body of `gather_features`: iterate over the feature
keys of the first graph's block for this class, accumulating the info table
and the columns. -/
def gatherClass (all_features_raw : List (List (String × List (String × Value))))
    {γ : Type} (c : FeatClass γ) :
    List String → Frame × List (String × FeatureInfo) →
    Except String (Frame × List (String × FeatureInfo))
  | [], acc => .ok acc
  | feature :: feats, (all_features, features_info) =>
    let info := get_feature_info c feature
    match gatherColumn all_features_raw c.shortname feature with
    | .error e => .error e
    | .ok col =>
      gatherClass all_features_raw c feats
        (alset all_features info.feature_name col,
         alset features_info info.feature_name info)

/-- Embeds the outer loop of `gather_features` over the active classes.
Reading the first graph's block for a class (`all_features_raw[0][shortname]`)
raises `KeyError` when absent. -/
def gatherClasses (all_features_raw : List (List (String × List (String × Value))))
    (first : List (String × List (String × Value)))
    {γ : Type} :
    List (FeatClass γ) → Frame × List (String × FeatureInfo) →
    Except String (Frame × List (String × FeatureInfo))
  | [], acc => .ok acc
  | c :: cs, acc =>
    match alget first c.shortname with
    | none => .error "KeyError"
    | some d =>
      match gatherClass all_features_raw c (d.map (fun p => p.1)) acc with
      | .error e => .error e
      | .ok acc2 => gatherClasses all_features_raw first cs acc2

/-- Embeds `gather_features` (feature_extraction.py lines 98-117): the
column set is established from the first graph's bundle
(`all_features_raw[0]`, an `IndexError` when there are no graphs), and the
cells are read with plain dict indexing. -/
def gather_features (all_features_raw : List (List (String × List (String × Value))))
    {γ : Type} (list_feature_classes : List (FeatClass γ)) :
    Except String (Frame × List (String × FeatureInfo)) :=
  match all_features_raw.head? with
  | none => .error "IndexError"
  | some first =>
    gatherClasses all_features_raw first list_feature_classes ([], [])

/-! ## The top-level `extract` (feature_extraction.py lines 13-23) -/

/-- Embeds `extract` (feature_extraction.py lines 13-23) with the active
class list passed explicitly (the registry's dynamic module discovery is
filesystem machinery).  Note the source computes
`good_features = filter_features(features)`, prints its column count, and
then returns the *unfiltered* `features`; the embedding mirrors that. -/
def extract {γ : Type} (graphs : List γ) (n_workers : Nat)
    (feat_classes : List (FeatClass γ)) (σ : List Nat) :
    Except String (Frame × List (String × FeatureInfo)) :=
  let raw_features := compute_all_features graphs feat_classes n_workers σ
  match gather_features raw_features feat_classes with
  | .error e => .error e
  | .ok (features, features_info) =>
    let _good_features := filter_features features
    .ok (features, features_info)

/-! ## The Memoization Cache (`hcga/features/spectrum.py` lines 12-32) -/

/-- Modelled from the spec together with spectrum.py: the semantics of
`functools.lru_cache(maxsize=None)` (third-party library) applied to the
module-level function `eval_spectrum_adj`.  The cache is an association
list keyed by the (hashable) graph argument, here an opaque key `Nat`; a
hit returns the stored value without calling the producer, a miss calls the
producer and stores the result.  The third component reports whether the
call was served from the cache. -/
def eval_spectrum_adj {α : Type} (spectrum : Nat → α)
    (cache : List (Nat × α)) (graph : Nat) : α × List (Nat × α) × Bool :=
  match alget cache graph with
  | some v => (v, cache, true)
  | none => (spectrum graph, cache ++ [(graph, spectrum graph)], false)

/-- One graph's computation pass of the Spectrum feature class, reduced to
its first call of `eval_spectrum_adj`; the module-level cache is threaded
in and out, because in the source it outlives the pass. -/
def spectrumPass {α : Type} (spectrum : Nat → α)
    (cache : List (Nat × α)) (graph : Nat) : α × List (Nat × α) × Bool :=
  eval_spectrum_adj spectrum cache graph

/-- Sequential passes over a collection of graphs (the `n_workers = 1`
dispatcher) with the module-level cache persisting from pass to pass, as it
does inside one worker process.  Returns per-pass (value, served-from-cache)
pairs and the final cache. -/
def runPasses {α : Type} (spectrum : Nat → α) (cache : List (Nat × α)) :
    List Nat → List (α × Bool) × List (Nat × α)
  | [] => ([], cache)
  | g :: gs =>
    match spectrumPass spectrum cache g with
    | (v, cache2, hit) =>
      match runPasses spectrum cache2 gs with
      | (out, cacheF) => ((v, hit) :: out, cacheF)

/-! ## The Randomized Partitioner
    (`asyn_fluidc`, communities_asyn_fluid.py lines 150-281)

The randomness of `@py_random_state` is embedded as explicit oracles: the
shuffled vertex order of the initialization (`initOrder`), the shuffled
vertex order of each sweep (`sweepOrder`, indexed by the sweep counter), and
the index stream of `seed.choice` (`choose`, indexed by a running counter of
choice calls).  Every behaviour of Python's seeded generator corresponds to
some choice of these oracles. -/

/-- A networkx graph as the partitioner reads it: node list, edge list and
directedness flag. -/
structure Graph where
  nodes : List Nat
  edges : List (Nat × Nat)
  directed : Bool

/-- The adjacency view `G[vertex]`: the deduplicated neighbours of `v` over
the undirected edge list. -/
def nbrs (G : Graph) (v : Nat) : List Nat :=
  (G.edges.filterMap (fun e =>
    if e.1 = v then some e.2 else if e.2 = v then some e.1 else none)).dedup

/-- One expansion step of a breadth-first reachability search. -/
def expandOnce (G : Graph) (vs : List Nat) : List Nat :=
  (vs ++ vs.flatMap (nbrs G)).dedup

/-- All vertices reachable from `v` (expanding `|nodes|` times suffices). -/
def reachFrom (G : Graph) (v : Nat) : List Nat :=
  (expandOnce G)^[G.nodes.length] [v]

/-- The exceptions `asyn_fluidc` can raise: `networkx.NetworkXError`,
`networkx.NetworkXNotImplemented` (from `@not_implemented_for` inside
`is_connected` on directed input), `networkx.NetworkXPointlessConcept`
(from `is_connected` on the null graph) and Python's `ZeroDivisionError`. -/
inductive NxErr
  | netError (msg : String)
  | notImplemented (msg : String)
  | pointlessConcept (msg : String)
  | zeroDivision
deriving DecidableEq, Repr

/-- Embeds `networkx.algorithms.components.is_connected` as called by the
source: directed input raises `NetworkXNotImplemented`, the null graph
raises `NetworkXPointlessConcept`, otherwise report whether every node is
reachable from a fixed one. -/
def is_connected (G : Graph) : Except NxErr Bool :=
  if G.directed then
    .error (.notImplemented "not implemented for directed type")
  else
    match G.nodes with
    | [] => .error (.pointlessConcept
        "Connectivity is undefined for the null graph.")
    | v :: _ => .ok (G.nodes.all (fun u => (reachFrom G v).contains u))

/-- The partitioner's loop state: `communities` as an insertion-ordered
dict from vertex to community id, `com_to_numvertices` and `density` as
functions on community ids (their key set is exactly `0..k-1`, set up by the
initialization and never extended afterwards), and the running count of
`seed.choice` calls consumed so far. -/
structure FluidState where
  comm : List (Nat × Nat)
  cnt : Nat → Int
  dens : Nat → ℚ
  t : Nat

/-- Pointwise update of a function-embedded dict entry. -/
def fupd {β : Type} (f : Nat → β) (a : Nat) (b : β) : Nat → β :=
  fun x => if x = a then b else f x

/-- Embeds `collections.Counter.update({c: q})`: add `q` to the count of
`c`, inserting the key at the end when absent. -/
def counterAdd (counter : List (Nat × ℚ)) (c : Nat) (q : ℚ) :
    List (Nat × ℚ) :=
  if (alget counter c).isSome then
    counter.map (fun p => if p.1 = c then (p.1, qAdd p.2 q) else p)
  else
    counter ++ [(c, q)]

/-- Embeds the construction of `com_counter` for one vertex: the vertex's
own community contributes its density (a `KeyError` for an unassigned
vertex is caught and ignored), then each neighbour's community contributes
its density (unassigned neighbours are skipped). -/
def buildCounter (G : Graph) (s : FluidState) (v : Nat) : List (Nat × ℚ) :=
  let c0 : List (Nat × ℚ) :=
    match alget s.comm v with
    | some cv => [(cv, s.dens cv)]
    | none => []
  (nbrs G v).foldl (fun acc u =>
    match alget s.comm u with
    | some cu => counterAdd acc cu (s.dens cu)
    | none => acc) c0

/-- Embeds `max(com_counter.values())` (only meaningful for a nonempty
counter, matching the guard in the source). -/
def maxFreq (counter : List (Nat × ℚ)) : ℚ :=
  match counter.map (fun p => p.2) with
  | [] => 0
  | q :: qs => qs.foldl qMax q

/-- Embeds the candidate communities whose vote is within the fixed
tolerance `0.0001` of the maximum vote. -/
def bestComs (counter : List (Nat × ℚ)) : List Nat :=
  counter.filterMap (fun p =>
    if qLt (qSub (maxFreq counter) p.2) (mkRat 1 10000) then some p.1 else none)

/-- Embeds `max_density = 1.0` (communities_asyn_fluid.py line 213). -/
def max_density : ℚ := 1

/-- Embeds the per-vertex updating rule (communities_asyn_fluid.py lines
231-276).  Returns the new state and whether the vertex was reassigned (the
source's `cont` flag for this vertex).  `density = max_density /
com_to_numvertices[...]` raises `ZeroDivisionError` when the updated member
count is zero, exactly as the Python division would. -/
def processVertex (G : Graph) (choose : Nat → Nat) (s : FluidState)
    (v : Nat) : Except NxErr (FluidState × Bool) :=
  let com_counter := buildCounter G s v
  if com_counter.isEmpty then .ok (s, false)
  else
    let best_communities := bestComs com_counter
    match alget s.comm v with
    | some cv =>
      if cv ∈ best_communities then .ok (s, false)
      else
        let new_com :=
          (best_communities.get? (choose s.t % best_communities.length)).getD 0
        let m := s.cnt cv - 1
        if m = 0 then .error .zeroDivision
        else
          let cnt1 := fupd s.cnt cv m
          let dens1 := fupd s.dens cv (qDiv max_density (Rat.divInt m 1))
          let comm1 := alset s.comm v new_com
          let m2 := cnt1 new_com + 1
          if m2 = 0 then .error .zeroDivision
          else
            .ok ({ comm := comm1, cnt := fupd cnt1 new_com m2,
                   dens := fupd dens1 new_com (qDiv max_density (Rat.divInt m2 1)),
                   t := s.t + 1 }, true)
    | none =>
      let new_com :=
        (best_communities.get? (choose s.t % best_communities.length)).getD 0
      let comm1 := alset s.comm v new_com
      let m2 := s.cnt new_com + 1
      if m2 = 0 then .error .zeroDivision
      else
        .ok ({ comm := comm1, cnt := fupd s.cnt new_com m2,
               dens := fupd s.dens new_com (qDiv max_density (Rat.divInt m2 1)),
               t := s.t + 1 }, true)

/-- Embeds one sweep over the shuffled vertex list, accumulating the
source's `cont` flag (initially `False` at the top of the `while` body). -/
def sweepVerts (G : Graph) (choose : Nat → Nat) :
    List Nat → FluidState → Bool → Except NxErr (FluidState × Bool)
  | [], s, cont => .ok (s, cont)
  | v :: vs, s, cont =>
    match processVertex G choose s v with
    | .error e => .error e
    | .ok (s2, changed) => sweepVerts G choose vs s2 (cont || changed)

/-- Embeds the `while cont` loop (communities_asyn_fluid.py lines 225-279).
Each pass runs one sweep over `sweepOrder iter_count`, increments the
iteration counter, and stops either because the sweep reassigned nothing
(the source's `cont` stays `False`: the Converged terminal state, third
component `true`) or because the counter exceeded `max_iter` (the
MaxIterExceeded break, third component `false`).  The fuel argument is
instantiated with `max_iter + 1`, which the guard `iter_count + 1 ≤
max_iter` on the recursive call makes sufficient. -/
def fluidLoop (G : Graph) (choose : Nat → Nat) (sweepOrder : Nat → List Nat)
    (max_iter : Nat) :
    Nat → Nat → FluidState → Except NxErr (FluidState × Nat × Bool)
  | 0, iter_count, s => .ok (s, iter_count, false)
  | fuel + 1, iter_count, s =>
    match sweepVerts G choose (sweepOrder iter_count) s false with
    | .error e => .error e
    | .ok (s2, cont) =>
      if !cont then .ok (s2, iter_count + 1, true)
      else if iter_count + 1 > max_iter then .ok (s2, iter_count + 1, false)
      else fluidLoop G choose sweepOrder max_iter fuel (iter_count + 1) s2

/-- First-occurrence deduplication, matching the key order of a Python dict
built by repeated insertion. -/
def firstDedup (l : List Nat) : List Nat :=
  l.foldl (fun acc x => if acc.contains x then acc else acc ++ [x]) []

/-- Embeds `list(iter(groups(communities).values()))`
(`networkx.utils.groups`): one group of vertices per community id, ids in
first-appearance order of the `communities` dict. -/
def groupsOf (comm : List (Nat × Nat)) : List (List Nat) :=
  (firstDedup (comm.map (fun p => p.2))).map
    (fun c => (comm.filter (fun p => p.2 == c)).map (fun p => p.1))

/-- Embeds the initialization (communities_asyn_fluid.py lines 212-221):
the first `k` vertices of the shuffled vertex list seed communities
`0..k-1`, each with member count 1 and density `1.0`.  `cnt` and `dens`
embed dicts whose key set is exactly `0..k-1`; values outside it are never
read on any path the source can take. -/
def initState (initOrder : List Nat) (k : Nat) : FluidState :=
  { comm := (initOrder.take k).zip (List.range k),
    cnt := fun c => if c < k then 1 else 0,
    dens := fun c => if c < k then 1 else 0,
    t := 0 }

/-- The full result of one `asyn_fluidc` run, with the sweep count and the
terminal state (Converged vs MaxIterExceeded) exposed for the theorems. -/
structure RunResult where
  groups : List (List Nat)
  densities : List ℚ
  sweeps : Nat
  converged : Bool
deriving DecidableEq, Repr

/-- Embeds `asyn_fluidc` (communities_asyn_fluid.py lines 150-281) with the
run metadata kept.  The initial checks mirror lines 203-211 in source
order; `isinstance(k, int)` cannot fail in a typed embedding, so `k` is an
integer by type and only its sign is checked.  The density list embeds
`list(density.values())`, whose key insertion order is `0..k-1`. -/
def asyn_fluidc_run (G : Graph) (k : Int) (max_iter : Nat)
    (initOrder : List Nat) (sweepOrder : Nat → List Nat)
    (choose : Nat → Nat) : Except NxErr RunResult :=
  if k ≤ 0 then .error (.netError "k must be greater than 0.")
  else
    match is_connected G with
    | .error e => .error e
    | .ok false =>
      .error (.netError "Fluid Communities require connected Graphs.")
    | .ok true =>
      if (G.nodes.length : Int) < k then
        .error (.netError "k cannot be bigger than the number of nodes.")
      else
        match fluidLoop G choose sweepOrder max_iter (max_iter + 1) 0
            (initState initOrder k.toNat) with
        | .error e => .error e
        | .ok (s, n, conv) =>
          .ok { groups := groupsOf s.comm,
                densities := (List.range k.toNat).map s.dens,
                sweeps := n, converged := conv }

/-- Embeds the return value of `asyn_fluidc`: the communities as vertex
groups and the density list. -/
def asyn_fluidc (G : Graph) (k : Int) (max_iter : Nat)
    (initOrder : List Nat) (sweepOrder : Nat → List Nat)
    (choose : Nat → Nat) : Except NxErr (List (List Nat) × List ℚ) :=
  (asyn_fluidc_run G k max_iter initOrder sweepOrder choose).map
    (fun r => (r.groups, r.densities))

/-- The synthetic 3-by-4 matrix named by the specification: column A is
constant, column B has one infinite value, columns C and D are finite and
non-constant. -/
def testFrame : Frame :=
  [("A", [Value.fin 1, Value.fin 1, Value.fin 1]),
   ("B", [Value.fin 1, Value.pinf, Value.fin 2]),
   ("C", [Value.fin 1, Value.fin 2, Value.fin 3]),
   ("D", [Value.fin 4, Value.fin 5, Value.fin 6])]

/-! ## Shared concrete inputs and helper lemmas -/

/-- The 3-vertex path graph 0 - 1 - 2. -/
def pathGraph3 : Graph :=
  { nodes := [0, 1, 2], edges := [(0, 1), (1, 2)], directed := false }

/-- The 5-vertex path graph 0 - 1 - 2 - 3 - 4. -/
def pathGraph5 : Graph :=
  { nodes := [0, 1, 2, 3, 4], edges := [(0, 1), (1, 2), (2, 3), (3, 4)],
    directed := false }

theorem alget_append_right {α β : Type} [DecidableEq α] (l : List (α × β))
    (a : α) (b : β) (h : alget l a = none) :
    alget (l ++ [(a, b)]) a = some b := by
  induction l with
  | nil => simp [alget]
  | cons p l ih =>
    rw [alget, List.cons_append, List.find?] at *
    by_cases hp : p.1 = a
    · simp [hp] at h
    · simp only [hp, decide_eq_true_eq, if_neg] at *
      simp only [decide_eq_false hp, Bool.false_eq_true] at *
      exact ih h

/-! ## Claims C2 and C3: the Filter and the value returned by `extract` -/

/-- C2: the specification claims `filter_features` drops every column with a
non-finite entry and every constant column, so that on the synthetic 3-by-4
matrix (A constant, B with one infinity, C and D finite non-constant) only
C and D survive.  In the source the result of
`features.replace([np.inf, -np.inf], np.nan)` is discarded (the call is
neither in-place nor assigned), so the infinite column B is not converted
to NaN, survives `dropna`, has NaN standard deviation (never `== 0`), and
is kept: the filtered matrix is [B, C, D], not [C, D]. -/
theorem claim_C2_filter_keeps_infinite_column :
    filter_features testFrame =
      [("B", [Value.fin 1, Value.pinf, Value.fin 2]),
       ("C", [Value.fin 1, Value.fin 2, Value.fin 3]),
       ("D", [Value.fin 4, Value.fin 5, Value.fin 6])] := by
  decide

/-- A one-class registry whose feature "const" has the same value on every
graph, used to exercise `extract` on a matrix with a constant column. -/
def constVarClass : FeatClass ℚ :=
  { shortname := "X",
    expected := ["const", "var"],
    compute := fun g => .ok [("const", Value.fin 1), ("var", Value.fin g)] }

/-- C3: the specification claims `extract` returns the post-Filter matrix,
with no constant and no non-finite column.  The source computes
`good_features = filter_features(features)` and then returns the unfiltered
`features`: on two graphs with the class above, the returned matrix still
contains the constant column `X_const`, which `filter_features` would have
dropped. -/
theorem claim_C3_extract_returns_unfiltered_matrix :
    extract [(1 : ℚ), 2] 1 [constVarClass] [] =
      .ok ([("X_const", [Value.fin 1, Value.fin 1]),
            ("X_var", [Value.fin 1, Value.fin 2])],
           [("X_const", { feature_name := "X_const", feature_class := "X" }),
            ("X_var", { feature_name := "X_var", feature_class := "X" })]) ∧
    filter_features
        [("X_const", [Value.fin 1, Value.fin 1]),
         ("X_var", [Value.fin 1, Value.fin 2])] =
      [("X_var", [Value.fin 1, Value.fin 2])] := by
  constructor
  · decide
  · decide

/-! ## Claim C10: the memoization cache -/

/-- C10 counterexample: the claim says no cached value computed during one
graph's pass is ever reused during another graph's pass.  The cache of
`eval_spectrum_adj` is a module-level `lru_cache(maxsize=None)`, so running
two passes over the same graph key serves the second pass from the value
the first pass stored (third component `true`), refuting the claim. -/
theorem claim_C10_counterexample :
    runPasses (fun n => n + 10) [] [7, 7] =
      ([(17, false), (17, true)], [(7, 17)]) := by
  decide

/-- C10 amended: the `lru_cache` on the module-level spectrum functions is
process-scoped and unbounded, not per-pass: a value cached during one
graph's pass persists and is reused, without recomputation, by any later
pass of the same process over the same graph key. -/
theorem claim_C10_cache_persists_across_passes {α : Type} (spectrum : Nat → α)
    (cache : List (Nat × α)) (g : Nat) (h : alget cache g = none) :
    runPasses spectrum cache [g, g] =
      ([(spectrum g, false), (spectrum g, true)],
       cache ++ [(g, spectrum g)]) := by
  have h2 : alget (cache ++ [(g, spectrum g)]) g = some (spectrum g) :=
    alget_append_right cache g (spectrum g) h
  simp only [runPasses, spectrumPass, eval_spectrum_adj, h, h2]

/-- Witness for the amended C10 theorem at a concrete cache and key. -/
theorem claim_C10_witness :
    alget ([] : List (Nat × Nat)) 5 = none ∧
    runPasses (fun n => n * 3) [] [5, 5] =
      ([(15, false), (15, true)], [(5, 15)]) :=
  ⟨rfl, claim_C10_cache_persists_across_passes (fun n => n * 3) [] 5 rfl⟩

/-! ## Claim C6: partitioner preconditions fail fast -/

/-- C6: for every input where k is not positive, or the graph is directed
or disconnected, or k exceeds the node count, `asyn_fluidc` raises before
any iteration sweep runs (the checks at communities_asyn_fluid.py lines
203-211 precede the initialization and the loop) and returns no partition
at all. -/
theorem claim_C6_preconditions_fail_fast (G : Graph) (k : Int)
    (max_iter : Nat) (initOrder : List Nat) (sweepOrder : Nat → List Nat)
    (choose : Nat → Nat)
    (h : k ≤ 0 ∨ G.directed = true ∨ is_connected G = .ok false ∨
      ((G.nodes.length : Int)) < k) :
    ∃ e, asyn_fluidc G k max_iter initOrder sweepOrder choose = .error e := by
  rw [asyn_fluidc, asyn_fluidc_run]
  by_cases hk : k ≤ 0
  · rw [if_pos hk]
    exact ⟨_, rfl⟩
  · rw [if_neg hk]
    have hdir : G.directed = true → ∃ e, is_connected G = .error e := by
      intro hd
      rw [is_connected, if_pos hd]
      exact ⟨_, rfl⟩
    rcases h with h | h | h | h
    · exact absurd h hk
    · rcases hdir h with ⟨e, he⟩
      rw [he]
      exact ⟨e, rfl⟩
    · rw [h]
      exact ⟨_, rfl⟩
    · rcases hc : is_connected G with e | b
      · exact ⟨e, rfl⟩
      · rcases b with _ | _
        · exact ⟨_, rfl⟩
        · rw [if_pos h]
          exact ⟨_, rfl⟩

/-- Witness for C6 at concrete violating inputs: k = 0 on a path, a
directed graph, a disconnected graph, and k larger than the node count. -/
theorem claim_C6_witness :
    ((0 : Int) ≤ 0 ∨ pathGraph3.directed = true ∨
      is_connected pathGraph3 = .ok false ∨
      ((pathGraph3.nodes.length : Int)) < 0) ∧
    (∃ e, asyn_fluidc pathGraph3 0 100 [0, 1, 2] (fun _ => [0, 1, 2])
      (fun _ => 0) = .error e) ∧
    (∃ e, asyn_fluidc { nodes := [0, 1], edges := [(0, 1)], directed := true }
      1 100 [0, 1] (fun _ => [0, 1]) (fun _ => 0) = .error e) ∧
    (∃ e, asyn_fluidc { nodes := [0, 1, 2], edges := [(0, 1)], directed := false }
      1 100 [0, 1, 2] (fun _ => [0, 1, 2]) (fun _ => 0) = .error e) ∧
    (∃ e, asyn_fluidc pathGraph3 4 100 [0, 1, 2] (fun _ => [0, 1, 2])
      (fun _ => 0) = .error e) := by
  refine ⟨Or.inl (by decide), ?_, ?_, ?_, ?_⟩
  · exact claim_C6_preconditions_fail_fast _ _ _ _ _ _ (Or.inl (by decide))
  · exact claim_C6_preconditions_fail_fast _ _ _ _ _ _ (Or.inr (Or.inl (by decide)))
  · exact claim_C6_preconditions_fail_fast _ _ _ _ _ _
      (Or.inr (Or.inr (Or.inl (by decide))))
  · exact claim_C6_preconditions_fail_fast _ _ _ _ _ _
      (Or.inr (Or.inr (Or.inr (by decide))))

/-! ## Claims C5 and C8: partitioner output in the terminal states -/

/-- The adversarial sweep order used by the C5 counterexample: each sweep
visits the path's vertices from the far end towards the seed. -/
def cexSweepOrder : Nat → List Nat := fun _ => [2, 1, 0]

/-- C5 counterexample: the claim says the returned groups partition the
node set exactly in *either* terminal state.  On the connected path
0 - 1 - 2 with k = 1 and `max_iter = 0` (all oracle orders being genuine
permutations of the nodes), the run ends in the MaxIterExceeded state after
its single sweep with vertex 2 still unassigned: the returned groups are
[[0, 1]], and node 2 appears in no group. -/
theorem claim_C5_counterexample :
    List.Perm [0, 1, 2] pathGraph3.nodes ∧
    (∀ t : Nat, ∀ v ∈ pathGraph3.nodes, v ∈ cexSweepOrder t) ∧
    asyn_fluidc_run pathGraph3 1 0 [0, 1, 2] cexSweepOrder (fun _ => 0) =
      .ok { groups := [[0, 1]], densities := [mkRat 1 2], sweeps := 1,
            converged := false } ∧
    2 ∈ pathGraph3.nodes ∧
    ([[0, 1]].countP (fun g => g.contains 2)) = 0 := by
  refine ⟨by decide, fun t => ?_, by decide, by decide, by decide⟩
  show ∀ v ∈ [0, 1, 2], v ∈ [2, 1, 0]
  decide

/-- C8 counterexample: the claim says at most `max_iter` sweeps are
performed.  The source checks `iter_count > max_iter` only after completing
a sweep, so a non-converging run performs `max_iter + 1` sweeps: on the
path 0 - 1 - 2 - 3 - 4 with k = 1 and `max_iter = 1`, two sweeps run. -/
theorem claim_C8_counterexample :
    (asyn_fluidc_run pathGraph5 1 1 [0, 1, 2, 3, 4] (fun _ => [4, 3, 2, 1, 0])
        (fun _ => 0)).map (fun r => (r.sweeps, r.converged)) = .ok (2, false) ∧
    ¬ (2 ≤ 1) := by
  exact ⟨by decide, by decide⟩

/-! ## Claim C1: per-class failure isolation in `feature_extraction` -/

theorem alget_cons {α β : Type} [DecidableEq α] (x : α) (y : β)
    (l : List (α × β)) (a : α) :
    alget ((x, y) :: l) a = if x = a then some y else alget l a := by
  by_cases h : x = a
  · have hfind : List.find? (fun p => decide (p.1 = a)) ((x, y) :: l) =
        some (x, y) := List.find?_cons_of_pos l (by simp [h])
    rw [if_pos h, alget, hfind]
    rfl
  · have hfind : List.find? (fun p => decide (p.1 = a)) ((x, y) :: l) =
        List.find? (fun p => decide (p.1 = a)) l :=
      List.find?_cons_of_neg l (by simp [h])
    rw [if_neg h, alget, hfind, alget]

theorem alget_map_update_ne {α β : Type} [DecidableEq α] (l : List (α × β))
    (a a2 : α) (b : β) (h : a2 ≠ a) :
    alget (l.map (fun p => if p.1 = a then (a, b) else p)) a2 = alget l a2 := by
  induction l with
  | nil => rfl
  | cons p l ih =>
    obtain ⟨x, y⟩ := p
    rw [List.map_cons]
    by_cases hp : x = a
    · have h1 : ¬ (a = a2) := fun hh => h hh.symm
      have h2 : ¬ (x = a2) := by
        rw [hp]
        exact h1
      have hhd : (if ((x, y) : α × β).1 = a then (a, b) else (x, y)) = (a, b) :=
        if_pos hp
      rw [hhd, alget_cons, alget_cons, if_neg h1, if_neg h2, ih]
    · have hhd : (if ((x, y) : α × β).1 = a then (a, b) else (x, y)) = (x, y) :=
        if_neg hp
      rw [hhd, alget_cons, alget_cons, ih]

theorem alget_map_update_self {α β : Type} [DecidableEq α] (l : List (α × β))
    (a : α) (b : β) (hs : (alget l a).isSome = true) :
    alget (l.map (fun p => if p.1 = a then (a, b) else p)) a = some b := by
  induction l with
  | nil => simp [alget] at hs
  | cons p l ih =>
    obtain ⟨x, y⟩ := p
    rw [List.map_cons]
    by_cases hp : x = a
    · have hhd : (if ((x, y) : α × β).1 = a then (a, b) else (x, y)) = (a, b) :=
        if_pos hp
      rw [hhd, alget_cons, if_pos rfl]
    · have hhd : (if ((x, y) : α × β).1 = a then (a, b) else (x, y)) = (x, y) :=
        if_neg hp
      rw [alget_cons, if_neg hp] at hs
      rw [hhd, alget_cons, if_neg hp]
      exact ih hs

theorem alget_alset_self {α β : Type} [DecidableEq α] (l : List (α × β))
    (a : α) (b : β) : alget (alset l a b) a = some b := by
  rw [alset]
  by_cases h : (alget l a).isSome
  · rw [if_pos h]
    exact alget_map_update_self l a b h
  · rw [if_neg h]
    rw [Option.not_isSome_iff_eq_none] at h
    exact alget_append_right l a b h

theorem alget_alset_ne {α β : Type} [DecidableEq α] (l : List (α × β))
    (a a2 : α) (b : β) (h : a2 ≠ a) : alget (alset l a b) a2 = alget l a2 := by
  rw [alset]
  by_cases hs : (alget l a).isSome
  · rw [if_pos hs]
    exact alget_map_update_ne l a a2 b h
  · rw [if_neg hs, alget, alget, List.find?_append]
    have hone : List.find? (fun p => p.1 = a2) [(a, b)] = none := by
      simp [List.find?, decide_eq_false (fun hh => h hh.symm : ¬ (a = a2))]
    rw [hone]
    simp

/-- Modelled from the spec: the block `update_features` stores for a class,
namely the computed records on success, or every expected feature name
mapped to the NaN sentinel when `compute_features` raised. -/
def classBlock {γ : Type} (c : FeatClass γ) (graph : γ) :
    List (String × Value) :=
  match c.compute graph with
  | .ok kvs => kvs
  | .error _ => c.expected.map (fun n => (n, Value.nan))

theorem update_features_eq_alset {γ : Type} (c : FeatClass γ) (graph : γ)
    (all_features : List (String × List (String × Value))) :
    update_features c graph all_features =
      alset all_features c.shortname (classBlock c graph) := by
  rw [update_features, classBlock]
  cases c.compute graph with
  | ok kvs => rfl
  | error e => rfl

theorem feature_extraction_foldl_not_mem {γ : Type} (graph : γ)
    (classes : List (FeatClass γ)) (init : List (String × List (String × Value)))
    (sn : String) (h : sn ∉ classes.map FeatClass.shortname) :
    alget (classes.foldl (fun all c => update_features c graph all) init) sn =
      alget init sn := by
  induction classes generalizing init with
  | nil => rfl
  | cons c cs ih =>
    rw [List.map_cons, List.mem_cons] at h
    push_neg at h
    rw [List.foldl_cons, ih _ h.2, update_features_eq_alset,
      alget_alset_ne _ _ _ _ h.1]

theorem feature_extraction_block {γ : Type} (graph : γ)
    (classes : List (FeatClass γ)) (init : List (String × List (String × Value)))
    (c : FeatClass γ) (hnd : (classes.map FeatClass.shortname).Nodup)
    (hc : c ∈ classes) :
    alget (classes.foldl (fun all c2 => update_features c2 graph all) init)
      c.shortname = some (classBlock c graph) := by
  induction classes generalizing init with
  | nil => cases hc
  | cons c2 cs ih =>
    rw [List.map_cons, List.nodup_cons] at hnd
    rcases List.mem_cons.mp hc with rfl | hmem
    · rw [List.foldl_cons, feature_extraction_foldl_not_mem _ _ _ _ hnd.1,
        update_features_eq_alset, alget_alset_self]
    · rw [List.foldl_cons]
      exact ih _ hnd.2 hmem

/-- C1: with registry-unique shortnames, if a class's `compute_features`
raises on a graph, `feature_extraction` still returns (the embedded
`update_features` absorbs the exception), the failing class's entire block
in that graph's bundle maps every expected feature name to the NaN
sentinel, and every other class that succeeds contributes its computed
records unchanged — a single failure never aborts the per-graph pass. -/
theorem claim_C1_per_class_failure_isolation {γ : Type} (graph : γ)
    (classes : List (FeatClass γ))
    (hnd : (classes.map FeatClass.shortname).Nodup) :
    (∀ c ∈ classes, ∀ msg, c.compute graph = .error msg →
      alget (feature_extraction graph classes) c.shortname =
        some (c.expected.map (fun n => (n, Value.nan)))) ∧
    (∀ c ∈ classes, ∀ kvs, c.compute graph = .ok kvs →
      alget (feature_extraction graph classes) c.shortname = some kvs) := by
  constructor
  · intro c hc msg hmsg
    rw [feature_extraction, feature_extraction_block graph classes [] c hnd hc,
      classBlock, hmsg]
  · intro c hc kvs hkvs
    rw [feature_extraction, feature_extraction_block graph classes [] c hnd hc,
      classBlock, hkvs]

/-- A feature class whose computation always raises, for the C1 witness. -/
def failingClass : FeatClass Nat :=
  { shortname := "F", expected := ["a", "b"], compute := fun _ => .error "boom" }

/-- A feature class whose computation always succeeds, for the C1 witness. -/
def okClass : FeatClass Nat :=
  { shortname := "G", expected := ["c"],
    compute := fun _ => .ok [("c", Value.fin 2)] }

/-- Witness for C1 on a two-class registry where the first class raises:
its block is sentinel-filled and the second class's block is intact. -/
theorem claim_C1_witness :
    ([failingClass, okClass].map FeatClass.shortname).Nodup ∧
    failingClass.compute 0 = .error "boom" ∧
    okClass.compute 0 = .ok [("c", Value.fin 2)] ∧
    alget (feature_extraction 0 [failingClass, okClass]) "F" =
      some [("a", Value.nan), ("b", Value.nan)] ∧
    alget (feature_extraction 0 [failingClass, okClass]) "G" =
      some [("c", Value.fin 2)] := by
  refine ⟨by decide, rfl, rfl, ?_, ?_⟩
  · exact (claim_C1_per_class_failure_isolation 0 [failingClass, okClass]
      (by decide)).1 failingClass (List.mem_cons_self _ _) "boom" rfl
  · exact (claim_C1_per_class_failure_isolation 0 [failingClass, okClass]
      (by decide)).2 okClass (List.mem_cons_of_mem _ (List.mem_cons_self _ _))
      [("c", Value.fin 2)] rfl

/-! ## Claim C4: one row per graph, in input order, for any worker count -/

theorem alget_completed {α β : Type} (f : α → β) (xs : List α) (σ : List Nat)
    (i : Nat) (x : α) (hx : xs.get? i = some x) (hi : i ∈ σ) :
    alget (σ.filterMap (fun j => (xs.get? j).map (fun y => (j, f y)))) i =
      some (f x) := by
  induction σ with
  | nil => cases hi
  | cons j σ ih =>
    rw [List.filterMap_cons]
    cases hj : xs.get? j with
    | none =>
      rcases List.mem_cons.mp hi with rfl | hmem
      · rw [hj] at hx
        cases hx
      · exact ih hmem
    | some y =>
      rw [Option.map_some']
      by_cases hji : j = i
      · subst hji
        rw [hj] at hx
        cases hx
        rw [alget_cons, if_pos rfl]
      · rw [alget_cons, if_neg hji]
        rcases List.mem_cons.mp hi with rfl | hmem
        · exact absurd rfl hji
        · exact ih hmem

theorem filterMap_congr_some {α β : Type} (l : List α) (g : α → Option β)
    (_h : β → β) (hf : α → β) (H : ∀ a ∈ l, g a = some (hf a)) :
    l.filterMap g = l.map hf := by
  induction l with
  | nil => rfl
  | cons a l ih =>
    rw [List.filterMap_cons, H a (List.mem_cons_self a l), List.map_cons,
      ih (fun a2 ha2 => H a2 (List.mem_cons_of_mem a ha2))]

theorem map_getD_range {α β : Type} (f : α → β) (xs : List α) (d : α) :
    (List.range xs.length).map (fun i => f (xs.getD i d)) = xs.map f := by
  induction xs with
  | nil => rfl
  | cons x t ih =>
    rw [List.length_cons, List.range_succ_eq_map, List.map_cons, List.map_map,
      List.map_cons]
    have hcomp : ((fun i => f ((x :: t).getD i d)) ∘ Nat.succ) =
        fun i => f (t.getD i d) := by
      funext i
      rfl
    rw [hcomp, ih]
    rfl

theorem imapModel_eq_map {α β : Type} (f : α → β) (xs : List α) (σ : List Nat)
    (hσ : ∀ i ∈ List.range xs.length, i ∈ σ) :
    imapModel f xs σ = xs.map f := by
  cases xs with
  | nil =>
    rw [imapModel]
    rfl
  | cons x t =>
    rw [imapModel]
    have H : ∀ i ∈ List.range (x :: t).length,
        alget ((σ.filterMap (fun j => ((x :: t).get? j).map (fun y => (j, f y)))))
          i = some ((fun i => f ((x :: t).getD i x)) i) := by
      intro i hir
      have hlt : i < (x :: t).length := List.mem_range.mp hir
      have hsome : (x :: t).get? i = some ((x :: t).getD i x) := by
        rw [List.getD_eq_getElem?_getD, List.get?_eq_getElem?]
        rw [(List.getElem?_eq_some_iff.mpr ⟨hlt, rfl⟩ :
          (x :: t)[i]? = some ((x :: t)[i]))]
        rfl
      exact alget_completed f (x :: t) σ i _ hsome (hσ i hir)
    rw [filterMap_congr_some _ _ id _ H, map_getD_range]

theorem mapE_ok_length {ε α β : Type} (f : α → Except ε β) (l : List α)
    (r : List β) (h : mapE f l = .ok r) : r.length = l.length := by
  induction l generalizing r with
  | nil =>
    cases h
    rfl
  | cons a l ih =>
    rw [mapE] at h
    cases hf : f a with
    | error e =>
      rw [hf] at h
      cases h
    | ok b =>
      rw [hf] at h
      cases hr : mapE f l with
      | error e =>
        rw [hr] at h
        cases h
      | ok bs =>
        rw [hr] at h
        cases h
        rw [List.length_cons, List.length_cons, ih bs hr]

theorem alset_mem {α β : Type} [DecidableEq α] (l : List (α × β)) (a : α)
    (b : β) (p : α × β) (hp : p ∈ alset l a b) : p ∈ l ∨ p = (a, b) := by
  rw [alset] at hp
  by_cases hs : (alget l a).isSome
  · rw [if_pos hs] at hp
    rcases List.mem_map.mp hp with ⟨q, hq, hqe⟩
    by_cases hqa : q.1 = a
    · rw [if_pos hqa] at hqe
      exact Or.inr hqe.symm
    · rw [if_neg hqa] at hqe
      exact Or.inl (hqe ▸ hq)
  · rw [if_neg hs] at hp
    rcases List.mem_append.mp hp with hin | hin
    · exact Or.inl hin
    · exact Or.inr (List.mem_singleton.mp hin)

theorem gatherColumn_ok_length
    (raw : List (List (String × List (String × Value)))) (sn feature : String)
    (col : List Value) (h : gatherColumn raw sn feature = .ok col) :
    col.length = raw.length := by
  exact mapE_ok_length _ _ _ h

theorem gatherClass_ok_length {γ : Type}
    (raw : List (List (String × List (String × Value)))) (c : FeatClass γ)
    (feats : List String) (acc : Frame × List (String × FeatureInfo))
    (out : Frame × List (String × FeatureInfo))
    (hacc : ∀ p ∈ acc.1, p.2.length = raw.length)
    (h : gatherClass raw c feats acc = .ok out) :
    ∀ p ∈ out.1, p.2.length = raw.length := by
  induction feats generalizing acc with
  | nil =>
    cases h
    exact hacc
  | cons feature feats ih =>
    obtain ⟨all_features, features_info⟩ := acc
    rw [gatherClass] at h
    cases hcol : gatherColumn raw c.shortname feature with
    | error e =>
      rw [hcol] at h
      cases h
    | ok col =>
      rw [hcol] at h
      refine ih _ ?_ h
      intro p hp
      rcases alset_mem _ _ _ p hp with hin | rfl
      · exact hacc p hin
      · exact mapE_ok_length _ _ _ hcol

theorem gatherClasses_ok_length {γ : Type}
    (raw : List (List (String × List (String × Value))))
    (first : List (String × List (String × Value)))
    (classes : List (FeatClass γ)) (acc : Frame × List (String × FeatureInfo))
    (out : Frame × List (String × FeatureInfo))
    (hacc : ∀ p ∈ acc.1, p.2.length = raw.length)
    (h : gatherClasses raw first classes acc = .ok out) :
    ∀ p ∈ out.1, p.2.length = raw.length := by
  induction classes generalizing acc with
  | nil =>
    cases h
    exact hacc
  | cons c cs ih =>
    rw [gatherClasses] at h
    split at h
    · cases h
    · split at h
      · cases h
      · rename_i d hd acc2 hcl
        exact ih acc2 (gatherClass_ok_length raw c _ acc acc2 hacc hcl) h

theorem gather_features_ok_length {γ : Type}
    (raw : List (List (String × List (String × Value))))
    (classes : List (FeatClass γ)) (features : Frame)
    (info : List (String × FeatureInfo))
    (h : gather_features raw classes = .ok (features, info)) :
    ∀ p ∈ features, p.2.length = raw.length := by
  rw [gather_features] at h
  cases hh : raw.head? with
  | none =>
    rw [hh] at h
    cases h
  | some first =>
    rw [hh] at h
    exact gatherClasses_ok_length raw first classes ([], []) (features, info)
      (fun p hp => absurd hp (List.not_mem_nil p)) h

/-- C4: for every graph collection, active class list, worker count and
completion order that eventually yields every job, `compute_all_features`
returns exactly the per-graph bundles `graphs.map (workerCall classes)` —
one bundle per input graph, in input order, whether execution is sequential
(`n_workers = 1`) or parallel — and every column of the aggregated feature
matrix has exactly one cell per input graph. -/
theorem claim_C4_rows_in_input_order {γ : Type} (graphs : List γ)
    (classes : List (FeatClass γ)) (n_workers : Nat) (σ : List Nat)
    (hσ : ∀ i ∈ List.range graphs.length, i ∈ σ) :
    compute_all_features graphs classes n_workers σ =
      graphs.map (workerCall classes) ∧
    (∀ features info,
      gather_features (compute_all_features graphs classes n_workers σ)
          classes = .ok (features, info) →
      ∀ p ∈ features, p.2.length = graphs.length) := by
  have hmain : compute_all_features graphs classes n_workers σ =
      graphs.map (workerCall classes) := by
    rw [compute_all_features]
    by_cases hn : n_workers = 1
    · rw [if_pos hn]
    · rw [if_neg hn]
      exact imapModel_eq_map _ _ _ hσ
  refine ⟨hmain, fun features info hok p hp => ?_⟩
  have hlen := gather_features_ok_length _ classes features info hok p hp
  rw [hmain, List.length_map] at hlen
  exact hlen

/-- Witness for C4: two graphs, one class, three workers, jobs completing
in reversed order; the bundles still come back in input order. -/
theorem claim_C4_witness :
    (∀ i ∈ List.range [(10 : ℚ), 20].length, i ∈ [1, 0]) ∧
    compute_all_features [(10 : ℚ), 20] [constVarClass] 3 [1, 0] =
      [[("X", [("const", Value.fin 1), ("var", Value.fin 10)])],
       [("X", [("const", Value.fin 1), ("var", Value.fin 20)])]] := by
  refine ⟨by decide, ?_⟩
  have h := (claim_C4_rows_in_input_order [(10 : ℚ), 20] [constVarClass] 3
    [1, 0] (by decide)).1
  rw [h]
  decide

/-! ## Claim C7: aggregation under schema mismatch -/

theorem mapE_ok_forall {ε α β : Type} (f : α → Except ε β) (l : List α)
    (r : List β) (h : mapE f l = .ok r) : ∀ a ∈ l, ∃ b, f a = .ok b := by
  induction l generalizing r with
  | nil =>
    intro a ha
    cases ha
  | cons a l ih =>
    rw [mapE] at h
    intro a2 ha2
    cases hf : f a with
    | error e =>
      rw [hf] at h
      cases h
    | ok b =>
      rw [hf] at h
      cases hr : mapE f l with
      | error e =>
        rw [hr] at h
        cases h
      | ok bs =>
        rcases List.mem_cons.mp ha2 with rfl | hmem
        · exact ⟨b, hf⟩
        · exact ih bs hr a2 hmem

theorem gatherColumn_ok_cells
    (raw : List (List (String × List (String × Value)))) (sn feature : String)
    (col : List Value) (h : gatherColumn raw sn feature = .ok col) :
    ∀ b ∈ raw, ∃ v, (alget b sn).bind (fun dd => alget dd feature) = some v := by
  intro b hb
  rcases mapE_ok_forall _ raw col h b hb with ⟨v, hv⟩
  split at hv
  · cases hv
  · rename_i dd hd
    split at hv
    · cases hv
    · rename_i v2 hf
      exact ⟨v2, by rw [hd, Option.some_bind, hf]⟩

theorem gatherClass_ok_columns {γ : Type}
    (raw : List (List (String × List (String × Value)))) (c : FeatClass γ)
    (feats : List String) (acc out : Frame × List (String × FeatureInfo))
    (h : gatherClass raw c feats acc = .ok out) :
    ∀ feature ∈ feats, ∃ col, gatherColumn raw c.shortname feature = .ok col := by
  induction feats generalizing acc with
  | nil =>
    intro f hf
    cases hf
  | cons feature feats ih =>
    obtain ⟨all_features, features_info⟩ := acc
    rw [gatherClass] at h
    intro f hf
    cases hcol : gatherColumn raw c.shortname feature with
    | error e =>
      rw [hcol] at h
      cases h
    | ok col =>
      rw [hcol] at h
      rcases List.mem_cons.mp hf with rfl | hmem
      · exact ⟨col, hcol⟩
      · exact ih _ h f hmem

theorem gatherClasses_ok_blocks {γ : Type}
    (raw : List (List (String × List (String × Value))))
    (first : List (String × List (String × Value)))
    (classes : List (FeatClass γ)) (acc out : Frame × List (String × FeatureInfo))
    (h : gatherClasses raw first classes acc = .ok out) :
    ∀ c ∈ classes, ∃ d, alget first c.shortname = some d ∧
      ∃ accIn accOut, gatherClass raw c (d.map (fun p => p.1)) accIn =
        .ok accOut := by
  induction classes generalizing acc with
  | nil =>
    intro c hc
    cases hc
  | cons c2 cs ih =>
    rw [gatherClasses] at h
    intro c hc
    split at h
    · cases h
    · rename_i d hd
      split at h
      · cases h
      · rename_i acc2 hcl
        rcases List.mem_cons.mp hc with rfl | hmem
        · exact ⟨d, hd, acc, acc2, hcl⟩
        · exact ih acc2 h c hmem

theorem gather_features_ok_no_missing {γ : Type}
    (raw : List (List (String × List (String × Value))))
    (classes : List (FeatClass γ)) (pr : Frame × List (String × FeatureInfo))
    (hok : gather_features raw classes = .ok pr) :
    ∀ c ∈ classes, ∃ b0 d0, raw.head? = some b0 ∧
      alget b0 c.shortname = some d0 ∧
      ∀ feature ∈ d0.map (fun p => p.1), ∀ b ∈ raw,
        ∃ v, (alget b c.shortname).bind (fun dd => alget dd feature) = some v := by
  rw [gather_features] at hok
  cases hh : raw.head? with
  | none =>
    rw [hh] at hok
    cases hok
  | some first =>
    rw [hh] at hok
    intro c hc
    rcases gatherClasses_ok_blocks raw first classes ([], []) pr hok c hc with
      ⟨d, hd, accIn, accOut, hcl⟩
    refine ⟨first, d, rfl, hd, fun feature hf b hb => ?_⟩
    rcases gatherClass_ok_columns raw c _ accIn accOut hcl feature hf with
      ⟨col, hcol⟩
    exact gatherColumn_ok_cells raw c.shortname feature col hcol b hb

/-- A one-feature class used by the C7 counterexample and witness. -/
def oneFeatureClass : FeatClass Nat :=
  { shortname := "X", expected := ["f"],
    compute := fun _ => .ok [("f", Value.fin 1)] }

/-- C7 counterexample: the claim says that when a later graph's bundle
lacks a column of the reference (first-bundle) schema, `gather_features`
fills the cell with the NaN sentinel and never fails; in the source the
cell is read with plain dict indexing `all_features_raw[i][shortname]
[feature]`, so the missing key raises `KeyError` and aggregation fails. -/
theorem claim_C7_counterexample :
    gather_features [[("X", [("f", Value.fin 1)])], [("X", [])]]
      [oneFeatureClass] = .error "KeyError" := by
  decide

/-- C7 amended: `gather_features` establishes the reference column set from
the first graph's bundle (it reads the feature keys of `raw[0]` per class),
and when any graph's bundle lacks a cell of that reference set the
aggregation raises `KeyError` instead of filling the NaN sentinel: a run in
which some bundle misses a reference cell can only end in an error. -/
theorem claim_C7_schema_mismatch_fatal {γ : Type}
    (raw : List (List (String × List (String × Value))))
    (classes : List (FeatClass γ)) (c : FeatClass γ) (hc : c ∈ classes)
    (b0 : List (String × List (String × Value))) (h0 : raw.head? = some b0)
    (d0 : List (String × Value)) (hd : alget b0 c.shortname = some d0)
    (feature : String) (hf : feature ∈ d0.map (fun p => p.1))
    (b : List (String × List (String × Value))) (hb : b ∈ raw)
    (hmiss : (alget b c.shortname).bind (fun dd => alget dd feature) = none) :
    ∃ e, gather_features raw classes = .error e := by
  cases hg : gather_features raw classes with
  | error e => exact ⟨e, rfl⟩
  | ok pr =>
    rcases gather_features_ok_no_missing raw classes pr hg c hc with
      ⟨b0x, d0x, h0x, hdx, hcells⟩
    rw [h0] at h0x
    cases h0x
    rw [hd] at hdx
    cases hdx
    rcases hcells feature hf b hb with ⟨v, hv⟩
    rw [hmiss] at hv
    cases hv

/-- Witness for the amended C7 theorem: the second bundle lacks column
"f" of the reference schema, so aggregation returns an error. -/
theorem claim_C7_witness :
    oneFeatureClass ∈ [oneFeatureClass] ∧
    (([[("X", [("f", Value.fin 1)])], [("X", [])]] :
        List (List (String × List (String × Value)))).head? =
      some [("X", [("f", Value.fin 1)])]) ∧
    (∃ e, gather_features
      [[("X", [("f", Value.fin 1)])], [("X", [])]]
      [oneFeatureClass] = .error e) := by
  refine ⟨List.mem_cons_self _ _, rfl, ?_⟩
  exact claim_C7_schema_mismatch_fatal
    [[("X", [("f", Value.fin 1)])], [("X", [])]] [oneFeatureClass]
    oneFeatureClass (List.mem_cons_self _ _)
    [("X", [("f", Value.fin 1)])] rfl
    [("f", Value.fin 1)] (by decide)
    "f" (by decide)
    [("X", [])] (by decide)
    (by decide)

/-! ## Counter infrastructure for the partitioner proofs -/

theorem alget_eq_none_iff {α β : Type} [DecidableEq α] (l : List (α × β))
    (a : α) : alget l a = none ↔ a ∉ l.map (fun p => p.1) := by
  rw [alget, Option.map_eq_none', List.find?_eq_none]
  constructor
  · intro h hmem
    rcases List.mem_map.mp hmem with ⟨p, hp, hpa⟩
    have h2 := h p hp
    simp only [decide_eq_true_eq] at h2
    exact h2 hpa
  · intro h p hp
    simp only [decide_eq_true_eq]
    intro hpa
    exact h (List.mem_map.mpr ⟨p, hp, hpa⟩)

theorem alget_of_mem_nodup {α β : Type} [DecidableEq α] (l : List (α × β))
    (p : α × β) (hnd : (l.map (fun q => q.1)).Nodup) (hp : p ∈ l) :
    alget l p.1 = some p.2 := by
  induction l with
  | nil => cases hp
  | cons q l ih =>
    rw [List.map_cons, List.nodup_cons] at hnd
    obtain ⟨x, y⟩ := q
    rcases List.mem_cons.mp hp with rfl | hmem
    · rw [alget_cons, if_pos rfl]
    · rw [alget_cons]
      have hx : x ≠ p.1 := by
        intro hh
        exact hnd.1 (List.mem_map.mpr ⟨p, hmem, hh.symm⟩)
      rw [if_neg hx]
      exact ih hnd.2 hmem

theorem mem_of_alget {α β : Type} [DecidableEq α] (l : List (α × β)) (a : α)
    (b : β) (h : alget l a = some b) : (a, b) ∈ l := by
  rw [alget] at h
  rcases Option.map_eq_some'.mp h with ⟨p, hfind, hpb⟩
  have hmem := List.mem_of_find?_eq_some hfind
  have hpa : p.1 = a := by
    have := List.find?_some hfind
    simpa using this
  have : p = (a, b) := by
    obtain ⟨x, y⟩ := p
    simp only at hpa hpb
    rw [hpa, hpb]
  exact this ▸ hmem

theorem map_fst_adjust {α β : Type} [DecidableEq α] (l : List (α × β)) (a : α)
    (g : β → β) :
    (l.map (fun p => if p.1 = a then (p.1, g p.2) else p)).map (fun p => p.1) =
      l.map (fun p => p.1) := by
  rw [List.map_map]
  apply List.map_congr_left
  intro p _
  by_cases hp : p.1 = a
  · simp [hp]
  · simp [hp]

theorem alget_map_adjust_ne {α β : Type} [DecidableEq α] (l : List (α × β))
    (a a2 : α) (g : β → β) (h : a2 ≠ a) :
    alget (l.map (fun p => if p.1 = a then (p.1, g p.2) else p)) a2 =
      alget l a2 := by
  induction l with
  | nil => rfl
  | cons p l ih =>
    obtain ⟨x, y⟩ := p
    rw [List.map_cons]
    by_cases hp : x = a
    · have hhd : (if ((x, y) : α × β).1 = a then (((x, y) : α × β).1, g y)
          else (x, y)) = (x, g y) := by
        simp [hp]
      have h2 : ¬ (x = a2) := by
        rw [hp]
        exact fun hh => h hh.symm
      rw [hhd, alget_cons, alget_cons, if_neg h2, if_neg h2, ih]
    · have hhd : (if ((x, y) : α × β).1 = a then (((x, y) : α × β).1, g y)
          else (x, y)) = (x, y) := by
        simp [hp]
      rw [hhd, alget_cons, alget_cons, ih]

theorem alget_map_adjust_self {α β : Type} [DecidableEq α] (l : List (α × β))
    (a : α) (g : β → β) (q : β) (h : alget l a = some q) :
    alget (l.map (fun p => if p.1 = a then (p.1, g p.2) else p)) a =
      some (g q) := by
  induction l with
  | nil => cases h
  | cons p l ih =>
    obtain ⟨x, y⟩ := p
    rw [List.map_cons]
    by_cases hp : x = a
    · have hhd : (if ((x, y) : α × β).1 = a then (((x, y) : α × β).1, g y)
          else (x, y)) = (x, g y) := by
        simp [hp]
      rw [alget_cons, if_pos hp] at h
      cases h
      rw [hhd, alget_cons, if_pos hp]
    · have hhd : (if ((x, y) : α × β).1 = a then (((x, y) : α × β).1, g y)
          else (x, y)) = (x, y) := by
        simp [hp]
      rw [alget_cons, if_neg hp] at h
      rw [hhd, alget_cons, if_neg hp]
      exact ih h

theorem counterAdd_getD_self (l : List (Nat × ℚ)) (c : Nat) (q : ℚ) :
    ((alget (counterAdd l c q) c).getD 0) = (alget l c).getD 0 + q := by
  rw [counterAdd]
  by_cases hs : (alget l c).isSome
  · rw [if_pos hs]
    rcases Option.isSome_iff_exists.mp hs with ⟨q0, hq0⟩
    rw [alget_map_adjust_self l c (fun y => qAdd y q) q0 hq0, hq0]
    simp [qAdd_eq]
  · rw [if_neg hs]
    rw [Option.not_isSome_iff_eq_none] at hs
    rw [alget_append_right l c q hs, hs]
    simp

theorem counterAdd_alget_ne (l : List (Nat × ℚ)) (c c2 : Nat) (q : ℚ)
    (h : c2 ≠ c) : alget (counterAdd l c q) c2 = alget l c2 := by
  rw [counterAdd]
  by_cases hs : (alget l c).isSome
  · rw [if_pos hs]
    rw [alget_map_adjust_ne l c c2 (fun y => qAdd y q) h]
  · rw [if_neg hs, alget, alget, List.find?_append]
    have hone : List.find? (fun p => p.1 = c2) [(c, q)] = none := by
      simp [List.find?, decide_eq_false (fun hh => h hh.symm : ¬ (c = c2))]
    rw [hone]
    simp

theorem counterAdd_isSome_self (l : List (Nat × ℚ)) (c : Nat) (q : ℚ) :
    (alget (counterAdd l c q) c).isSome = true := by
  rw [counterAdd]
  by_cases hs : (alget l c).isSome
  · rw [if_pos hs]
    rcases Option.isSome_iff_exists.mp hs with ⟨q0, hq0⟩
    rw [alget_map_adjust_self l c (fun y => qAdd y q) q0 hq0]
    rfl
  · rw [if_neg hs]
    rw [Option.not_isSome_iff_eq_none] at hs
    rw [alget_append_right l c q hs]
    rfl

theorem counterAdd_keys_nodup (l : List (Nat × ℚ)) (c : Nat) (q : ℚ)
    (hnd : (l.map (fun p => p.1)).Nodup) :
    ((counterAdd l c q).map (fun p => p.1)).Nodup := by
  rw [counterAdd]
  by_cases hs : (alget l c).isSome
  · rw [if_pos hs]
    rw [map_fst_adjust l c (fun y => qAdd y q)]
    exact hnd
  · rw [if_neg hs]
    rw [Option.not_isSome_iff_eq_none, alget_eq_none_iff] at hs
    rw [List.map_append]
    simpa using List.Nodup.append hnd (List.nodup_singleton c)
      (by simpa using hs)

theorem counterAdd_ne_nil (l : List (Nat × ℚ)) (c : Nat) (q : ℚ) :
    counterAdd l c q ≠ [] := by
  rw [counterAdd]
  by_cases hs : (alget l c).isSome
  · rw [if_pos hs]
    intro hl
    rw [List.map_eq_nil_iff] at hl
    rw [hl] at hs
    simp [alget] at hs
  · rw [if_neg hs]
    simp

/-! ## Characterizing `buildCounter`: vote values and candidate sets -/

/-- The accumulation step of `buildCounter` over one neighbour, named for
the proofs; definitionally the lambda inside `buildCounter`. -/
def counterStep (s : FluidState) (acc : List (Nat × ℚ)) (u : Nat) :
    List (Nat × ℚ) :=
  match alget s.comm u with
  | some cu => counterAdd acc cu (s.dens cu)
  | none => acc

/-- The self-community seed of `buildCounter`, named for the proofs. -/
def selfCounter (s : FluidState) (v : Nat) : List (Nat × ℚ) :=
  match alget s.comm v with
  | some cv => [(cv, s.dens cv)]
  | none => []

theorem buildCounter_eq (G : Graph) (s : FluidState) (v : Nat) :
    buildCounter G s v = (nbrs G v).foldl (counterStep s) (selfCounter s v) :=
  rfl

theorem foldStep_getD (s : FluidState) (us : List Nat)
    (acc : List (Nat × ℚ)) (c : Nat) :
    (alget (us.foldl (counterStep s) acc) c).getD 0 =
      (alget acc c).getD 0 +
        (us.countP (fun u => decide (alget s.comm u = some c)) : ℚ) *
          s.dens c := by
  induction us generalizing acc with
  | nil => simp
  | cons u us ih =>
    rw [List.foldl_cons, ih, List.countP_cons]
    cases hu : alget s.comm u with
    | none =>
      have hstep : counterStep s acc u = acc := by
        rw [counterStep, hu]
      have hpred : (decide ((none : Option Nat) = some c)) = false := by
        simp
      rw [hstep, hpred]
      have hif : (if (false = true) then 1 else 0) = 0 := by simp
      rw [hif]
      push_cast
      ring
    | some cu =>
      have hstep : counterStep s acc u = counterAdd acc cu (s.dens cu) := by
        rw [counterStep, hu]
      by_cases hc : cu = c
      · subst hc
        have hpred : (decide ((some cu : Option Nat) = some cu)) = true := by
          simp
        rw [hstep, hpred, counterAdd_getD_self]
        have hif : (if (true = true) then 1 else 0) = 1 := by simp
        rw [hif]
        push_cast
        ring
      · have hpred : (decide ((some cu : Option Nat) = some c)) = false := by
          simp [hc]
        rw [hstep, counterAdd_alget_ne acc cu c (s.dens cu)
          (fun hh => hc hh.symm), hpred]
        have hif : (if (false = true) then 1 else 0) = 0 := by simp
        rw [hif]
        push_cast
        ring

theorem foldStep_isSome (s : FluidState) (us : List Nat)
    (acc : List (Nat × ℚ)) (c : Nat) :
    (alget (us.foldl (counterStep s) acc) c).isSome = true ↔
      (alget acc c).isSome = true ∨
        0 < us.countP (fun u => decide (alget s.comm u = some c)) := by
  induction us generalizing acc with
  | nil => simp
  | cons u us ih =>
    rw [List.foldl_cons, ih, List.countP_cons]
    cases hu : alget s.comm u with
    | none =>
      have hstep : counterStep s acc u = acc := by
        rw [counterStep, hu]
      have hpred : (decide ((none : Option Nat) = some c)) = false := by
        simp
      rw [hstep, hpred]
      simp
    | some cu =>
      have hstep : counterStep s acc u = counterAdd acc cu (s.dens cu) := by
        rw [counterStep, hu]
      by_cases hc : cu = c
      · subst hc
        have hpred : (decide ((some cu : Option Nat) = some cu)) = true := by
          simp
        rw [hstep, hpred]
        constructor
        · intro _
          right
          have hif : (if (true = true) then 1 else 0) = 1 := by simp
          rw [hif]
          omega
        · intro _
          left
          exact counterAdd_isSome_self acc cu (s.dens cu)
      · have hpred : (decide ((some cu : Option Nat) = some c)) = false := by
          simp [hc]
        rw [hstep, counterAdd_alget_ne acc cu c (s.dens cu)
          (fun hh => hc hh.symm), hpred]
        simp

theorem foldStep_keys_nodup (s : FluidState) (us : List Nat)
    (acc : List (Nat × ℚ)) (hnd : (acc.map (fun p => p.1)).Nodup) :
    (((us.foldl (counterStep s) acc)).map (fun p => p.1)).Nodup := by
  induction us generalizing acc with
  | nil => exact hnd
  | cons u us ih =>
    rw [List.foldl_cons]
    cases hu : alget s.comm u with
    | none =>
      have hstep : counterStep s acc u = acc := by
        rw [counterStep, hu]
      rw [hstep]
      exact ih acc hnd
    | some cu =>
      have hstep : counterStep s acc u = counterAdd acc cu (s.dens cu) := by
        rw [counterStep, hu]
      rw [hstep]
      exact ih _ (counterAdd_keys_nodup acc cu (s.dens cu) hnd)

theorem foldStep_ne_nil (s : FluidState) (us : List Nat)
    (acc : List (Nat × ℚ)) (hacc : acc ≠ []) :
    us.foldl (counterStep s) acc ≠ [] := by
  induction us generalizing acc with
  | nil => exact hacc
  | cons u us ih =>
    rw [List.foldl_cons]
    cases hu : alget s.comm u with
    | none =>
      have hstep : counterStep s acc u = acc := by
        rw [counterStep, hu]
      rw [hstep]
      exact ih acc hacc
    | some cu =>
      have hstep : counterStep s acc u = counterAdd acc cu (s.dens cu) := by
        rw [counterStep, hu]
      rw [hstep]
      exact ih _ (counterAdd_ne_nil acc cu (s.dens cu))

theorem alget_ne_nil {α β : Type} [DecidableEq α] (l : List (α × β)) (a : α)
    (h : (alget l a).isSome = true) : l ≠ [] := by
  intro hl
  rw [hl] at h
  simp [alget] at h

/-! Lemmas about `maxFreq` and `bestComs`. -/

theorem foldl_qMax_ge_init (qs : List ℚ) (q : ℚ) : q ≤ qs.foldl qMax q := by
  induction qs generalizing q with
  | nil => exact le_refl q
  | cons x qs ih =>
    rw [List.foldl_cons]
    refine le_trans ?_ (ih (qMax q x))
    rw [qMax_eq]
    exact le_max_left q x

theorem foldl_qMax_ge_mem (qs : List ℚ) (q x : ℚ) (hx : x ∈ qs) :
    x ≤ qs.foldl qMax q := by
  induction qs generalizing q with
  | nil => cases hx
  | cons y qs ih =>
    rw [List.foldl_cons]
    rcases List.mem_cons.mp hx with rfl | hmem
    · refine le_trans ?_ (foldl_qMax_ge_init qs (qMax q x))
      rw [qMax_eq]
      exact le_max_right q x
    · exact ih (qMax q y) hmem

theorem foldl_qMax_le (qs : List ℚ) (q b : ℚ) (hq : q ≤ b)
    (hqs : ∀ x ∈ qs, x ≤ b) : qs.foldl qMax q ≤ b := by
  induction qs generalizing q with
  | nil => exact hq
  | cons x qs ih =>
    rw [List.foldl_cons]
    refine ih (qMax q x) ?_ (fun y hy => hqs y (List.mem_cons_of_mem x hy))
    rw [qMax_eq]
    exact max_le hq (hqs x (List.mem_cons_self x qs))

theorem foldl_qMax_mem (qs : List ℚ) (q : ℚ) :
    qs.foldl qMax q ∈ q :: qs := by
  induction qs generalizing q with
  | nil => exact List.mem_singleton.mpr rfl
  | cons x qs ih =>
    rw [List.foldl_cons]
    have hqm : qMax q x = q ∨ qMax q x = x := by
      rw [qMax]
      by_cases hc : qLt q x = true
      · rw [if_pos hc]
        exact Or.inr rfl
      · rw [if_neg hc]
        exact Or.inl rfl
    rcases List.mem_cons.mp (ih (qMax q x)) with heq | hmem
    · rcases hqm with hq | hx
      · rw [heq, hq]
        exact List.mem_cons_self q (x :: qs)
      · rw [heq, hx]
        exact List.mem_cons_of_mem q (List.mem_cons_self x qs)
    · exact List.mem_cons_of_mem q (List.mem_cons_of_mem x hmem)

theorem maxFreq_ge (counter : List (Nat × ℚ)) (p : Nat × ℚ)
    (hp : p ∈ counter) : p.2 ≤ maxFreq counter := by
  rw [maxFreq]
  cases hc : counter.map (fun p => p.2) with
  | nil =>
    rw [List.map_eq_nil_iff] at hc
    rw [hc] at hp
    cases hp
  | cons q qs =>
    have hmem : p.2 ∈ counter.map (fun p => p.2) := List.mem_map_of_mem _ hp
    rw [hc] at hmem
    rcases List.mem_cons.mp hmem with rfl | hmem2
    · exact foldl_qMax_ge_init qs p.2
    · exact foldl_qMax_ge_mem qs q p.2 hmem2

theorem maxFreq_le (counter : List (Nat × ℚ)) (b : ℚ)
    (h : ∀ p ∈ counter, p.2 ≤ b) (hne : counter ≠ []) :
    maxFreq counter ≤ b := by
  rw [maxFreq]
  cases hc : counter.map (fun p => p.2) with
  | nil =>
    rw [List.map_eq_nil_iff] at hc
    exact absurd hc hne
  | cons q qs =>
    have hall : ∀ x ∈ counter.map (fun p => p.2), x ≤ b := by
      intro x hx
      rcases List.mem_map.mp hx with ⟨p, hp, rfl⟩
      exact h p hp
    rw [hc] at hall
    exact foldl_qMax_le qs q b (hall q (List.mem_cons_self q qs))
      (fun x hx => hall x (List.mem_cons_of_mem q hx))

theorem maxFreq_mem (counter : List (Nat × ℚ)) (hne : counter ≠ []) :
    ∃ p ∈ counter, p.2 = maxFreq counter := by
  rw [maxFreq]
  cases hc : counter.map (fun p => p.2) with
  | nil =>
    rw [List.map_eq_nil_iff] at hc
    exact absurd hc hne
  | cons q qs =>
    have hmem : qs.foldl qMax q ∈ counter.map (fun p => p.2) := by
      rw [hc]
      exact foldl_qMax_mem qs q
    rcases List.mem_map.mp hmem with ⟨p, hp, hpq⟩
    exact ⟨p, hp, hpq⟩

theorem tolerance_eq : (mkRat 1 10000 : ℚ) = 1 / 10000 := by
  rw [Rat.mkRat_eq_divInt, Rat.divInt_eq_div]
  norm_num

theorem mem_bestComs_of (counter : List (Nat × ℚ)) (p : Nat × ℚ)
    (hp : p ∈ counter) (hcond : maxFreq counter - p.2 < 1 / 10000) :
    p.1 ∈ bestComs counter := by
  refine List.mem_filterMap.mpr ⟨p, hp, ?_⟩
  rw [if_pos]
  rw [qLt_iff, qSub_eq, tolerance_eq]
  exact hcond

theorem of_mem_bestComs (counter : List (Nat × ℚ)) (c : Nat)
    (hc : c ∈ bestComs counter) :
    ∃ q, (c, q) ∈ counter ∧ maxFreq counter - q < 1 / 10000 := by
  rcases List.mem_filterMap.mp hc with ⟨p, hp, hif⟩
  by_cases hcond : qLt (qSub (maxFreq counter) p.2) (mkRat 1 10000) = true
  · rw [if_pos hcond] at hif
    cases hif
    rw [qLt_iff, qSub_eq, tolerance_eq] at hcond
    exact ⟨p.2, hp, hcond⟩
  · rw [if_neg hcond] at hif
    cases hif

theorem bestComs_ne_nil (counter : List (Nat × ℚ)) (hne : counter ≠ []) :
    bestComs counter ≠ [] := by
  rcases maxFreq_mem counter hne with ⟨p, hp, hpm⟩
  have : p.1 ∈ bestComs counter := by
    refine mem_bestComs_of counter p hp ?_
    rw [hpm]
    norm_num
  intro h0
  rw [h0] at this
  cases this

theorem pick_mem (l : List Nat) (i : Nat) (hne : l ≠ []) :
    (l.get? (i % l.length)).getD 0 ∈ l := by
  have hlen : 0 < l.length := List.length_pos.mpr hne
  have hlt : i % l.length < l.length := Nat.mod_lt i hlen
  rw [List.get?_eq_get hlt]
  exact List.get_mem l _ _

/-! ## The partitioner loop invariant -/

/-- The state invariant of the fluid-communities loop: community keys are
distinct vertices, `com_to_numvertices` is the exact member count of each
community, and `density` is exactly one over the member count for every
inhabited community. -/
def Inv (s : FluidState) : Prop :=
  (s.comm.map (fun p => p.1)).Nodup ∧
  (∀ c, s.cnt c = ((s.comm.countP (fun p => decide (p.2 = c)) : ℕ) : ℤ)) ∧
  (∀ c, 0 < s.cnt c → s.dens c = 1 / ((s.cnt c : ℚ)))

theorem cnt_pos_of_assigned (s : FluidState) (v cv : Nat) (hinv : Inv s)
    (hv : alget s.comm v = some cv) : 0 < s.cnt cv := by
  rw [hinv.2.1 cv]
  have hmem : (v, cv) ∈ s.comm := mem_of_alget s.comm v cv hv
  have : 0 < s.comm.countP (fun p => decide (p.2 = cv)) :=
    List.countP_pos_iff.mpr ⟨(v, cv), hmem, by simp⟩
  exact_mod_cast this

theorem qdiv_divInt_one (m : ℤ) :
    qDiv max_density (Rat.divInt m 1) = 1 / ((m : ℚ)) := by
  rw [qDiv_eq, max_density, Rat.divInt_eq_div]
  norm_num

/-- The number of distinct neighbours currently assigned to community `c`
is at most the total membership of `c`. -/
theorem nbr_count_le_members (s : FluidState) (us : List Nat)
    (hus : us.Nodup) (_hnd : (s.comm.map (fun p => p.1)).Nodup) (c : Nat) :
    us.countP (fun u => decide (alget s.comm u = some c)) ≤
      s.comm.countP (fun p => decide (p.2 = c)) := by
  rw [List.countP_eq_length_filter, List.countP_eq_length_filter]
  have hmapnd : ((us.filter (fun u => decide (alget s.comm u = some c))).map
      (fun u => (u, c))).Nodup := by
    refine List.Nodup.map ?_ (hus.filter _)
    intro a b hab
    exact congrArg Prod.fst hab
  have hsub : ((us.filter (fun u => decide (alget s.comm u = some c))).map
      (fun u => (u, c))) ⊆ s.comm.filter (fun p => decide (p.2 = c)) := by
    intro p hp
    rcases List.mem_map.mp hp with ⟨u, hu, rfl⟩
    have hpred := List.of_mem_filter hu
    simp only [decide_eq_true_eq] at hpred
    refine List.mem_filter.mpr ⟨mem_of_alget s.comm u c hpred, by simp⟩
  have := (hmapnd.subperm hsub).length_le
  rw [List.length_map] at this
  exact this

theorem selfCounter_getD (s : FluidState) (v c : Nat) :
    (alget (selfCounter s v) c).getD 0 =
      if alget s.comm v = some c then s.dens c else 0 := by
  rw [selfCounter]
  cases hv : alget s.comm v with
  | none =>
    simp [alget]
  | some cv =>
    by_cases hc : cv = c
    · subst hc
      rw [alget_cons, if_pos rfl, if_pos rfl]
      rfl
    · rw [alget_cons, if_neg hc, if_neg (by simp [hc])]
      rfl

theorem selfCounter_isSome (s : FluidState) (v c : Nat) :
    (alget (selfCounter s v) c).isSome = true ↔ alget s.comm v = some c := by
  rw [selfCounter]
  cases hv : alget s.comm v with
  | none =>
    simp [alget]
  | some cv =>
    by_cases hc : cv = c
    · subst hc
      rw [alget_cons, if_pos rfl]
      simp
    · rw [alget_cons, if_neg hc]
      simp [alget, hc]

theorem selfCounter_keys_nodup (s : FluidState) (v : Nat) :
    ((selfCounter s v).map (fun p => p.1)).Nodup := by
  rw [selfCounter]
  cases alget s.comm v with
  | none => exact List.nodup_nil
  | some cv => exact List.nodup_singleton cv

theorem buildCounter_keys_nodup (G : Graph) (s : FluidState) (v : Nat) :
    ((buildCounter G s v).map (fun p => p.1)).Nodup := by
  rw [buildCounter_eq]
  exact foldStep_keys_nodup s (nbrs G v) (selfCounter s v)
    (selfCounter_keys_nodup s v)

/-- The vote recorded for community `c` while processing vertex `v`: the
self contribution plus one density per assigned neighbour. -/
theorem buildCounter_getD (G : Graph) (s : FluidState) (v c : Nat) :
    (alget (buildCounter G s v) c).getD 0 =
      (if alget s.comm v = some c then s.dens c else 0) +
        ((nbrs G v).countP (fun u => decide (alget s.comm u = some c)) : ℚ) *
          s.dens c := by
  rw [buildCounter_eq, foldStep_getD, selfCounter_getD]

theorem buildCounter_isSome (G : Graph) (s : FluidState) (v c : Nat) :
    (alget (buildCounter G s v) c).isSome = true ↔
      alget s.comm v = some c ∨
        0 < (nbrs G v).countP (fun u => decide (alget s.comm u = some c)) := by
  rw [buildCounter_eq, foldStep_isSome, selfCounter_isSome]

/-- The key stability fact: a vertex that is the sole member of its
community always finds its own community among the candidates, because its
own vote is at least 1 while no other community's vote can exceed 1. -/
theorem singleton_in_best (G : Graph) (s : FluidState) (v cv : Nat)
    (hinv : Inv s) (hv : alget s.comm v = some cv) (hcnt : s.cnt cv = 1) :
    cv ∈ bestComs (buildCounter G s v) := by
  have hnd := hinv.1
  have hdens : s.dens cv = 1 := by
    rw [hinv.2.2 cv (by rw [hcnt]; norm_num), hcnt]
    norm_num
  have hknodup := buildCounter_keys_nodup G s v
  -- the vertex's own vote
  have hownsome : (alget (buildCounter G s v) cv).isSome = true :=
    (buildCounter_isSome G s v cv).mpr (Or.inl hv)
  have hown_ge : (1 : ℚ) ≤ (alget (buildCounter G s v) cv).getD 0 := by
    rw [buildCounter_getD, if_pos hv, hdens]
    have : (0 : ℚ) ≤ (((nbrs G v).countP
        (fun u => decide (alget s.comm u = some cv)) : ℕ) : ℚ) * 1 := by
      positivity
    linarith
  -- every vote is at most the vertex's own vote
  have hbound : ∀ p ∈ buildCounter G s v,
      p.2 ≤ (alget (buildCounter G s v) cv).getD 0 := by
    intro p hp
    have hpv : alget (buildCounter G s v) p.1 = some p.2 :=
      alget_of_mem_nodup _ p hknodup hp
    by_cases hpc : p.1 = cv
    · rw [← hpc] at *
      rw [hpv]
      simp
    · -- another community: its vote is at most 1
      have hval : p.2 = (alget (buildCounter G s v) p.1).getD 0 := by
        rw [hpv]
        rfl
      have hself0 : (if alget s.comm v = some p.1 then s.dens p.1 else 0) =
          0 := by
        rw [if_neg]
        rw [hv]
        intro hh
        cases hh
        exact hpc rfl
      rw [hval, buildCounter_getD, hself0, zero_add]
      set n := (nbrs G v).countP (fun u => decide (alget s.comm u = some p.1))
        with hn
      by_cases hn0 : n = 0
      · rw [hn0]
        push_cast
        rw [zero_mul]
        linarith
      · -- some neighbour is assigned to p.1, so the community is inhabited
        have hnpos : 0 < n := Nat.pos_of_ne_zero hn0
        have hupos : ∃ u ∈ nbrs G v, alget s.comm u = some p.1 := by
          rcases List.countP_pos_iff.mp (hn ▸ hnpos) with ⟨u, hu, hpu⟩
          exact ⟨u, hu, by simpa using hpu⟩
        rcases hupos with ⟨u, _, hu⟩
        have hcpos : 0 < s.cnt p.1 := cnt_pos_of_assigned s u p.1 hinv hu
        have hdp : s.dens p.1 = 1 / ((s.cnt p.1 : ℚ)) := hinv.2.2 p.1 hcpos
        have hle : (n : ℤ) ≤ s.cnt p.1 := by
          rw [hinv.2.1 p.1]
          exact_mod_cast nbr_count_le_members s (nbrs G v)
            (List.nodup_dedup _) hnd p.1
        have hcq : (0 : ℚ) < ((s.cnt p.1 : ℚ)) := by
          exact_mod_cast hcpos
        have hnq : ((n : ℚ)) ≤ ((s.cnt p.1 : ℚ)) := by
          exact_mod_cast hle
        rw [hdp]
        have h2 : ((n : ℚ)) * (1 / ((s.cnt p.1 : ℚ))) ≤ 1 := by
          rw [mul_one_div, div_le_one hcq]
          exact hnq
        linarith
  -- hence the maximum vote is the vertex's own vote
  have hne : buildCounter G s v ≠ [] := alget_ne_nil _ cv hownsome
  have hmax_le : maxFreq (buildCounter G s v) ≤
      (alget (buildCounter G s v) cv).getD 0 :=
    maxFreq_le _ _ hbound hne
  rcases Option.isSome_iff_exists.mp hownsome with ⟨q0, hq0⟩
  have hq0v : q0 = (alget (buildCounter G s v) cv).getD 0 := by
    rw [hq0]
    rfl
  refine mem_bestComs_of (buildCounter G s v) (cv, q0)
    (mem_of_alget _ cv q0 hq0) ?_
  simp only
  rw [hq0v]
  have : (0 : ℚ) < 1 / 10000 := by norm_num
  linarith

/-! ## Membership bookkeeping for community reassignment -/

theorem alset_present_eq {α β : Type} [DecidableEq α] (l : List (α × β))
    (a : α) (b : β) (hs : (alget l a).isSome = true) :
    alset l a b = l.map (fun p => if p.1 = a then (p.1, b) else p) := by
  rw [alset, if_pos hs]
  apply List.map_congr_left
  intro p _
  by_cases hp : p.1 = a
  · simp [hp]
  · simp [hp]

theorem alset_absent_eq {α β : Type} [DecidableEq α] (l : List (α × β))
    (a : α) (b : β) (hs : alget l a = none) :
    alset l a b = l ++ [(a, b)] := by
  rw [alset, if_neg]
  rw [hs]
  simp

theorem alset_keys_present {α β : Type} [DecidableEq α] (l : List (α × β))
    (a : α) (b : β) (hs : (alget l a).isSome = true) :
    (alset l a b).map (fun p => p.1) = l.map (fun p => p.1) := by
  rw [alset_present_eq l a b hs, List.map_map]
  apply List.map_congr_left
  intro p _
  by_cases hp : p.1 = a
  · simp [hp]
  · simp [hp]

theorem alset_keys_absent {α β : Type} [DecidableEq α] (l : List (α × β))
    (a : α) (b : β) (hs : alget l a = none) :
    (alset l a b).map (fun p => p.1) = l.map (fun p => p.1) ++ [a] := by
  rw [alset_absent_eq l a b hs, List.map_append]
  rfl

theorem alset_keys_nodup {α β : Type} [DecidableEq α] (l : List (α × β))
    (a : α) (b : β) (hnd : (l.map (fun p => p.1)).Nodup) :
    ((alset l a b).map (fun p => p.1)).Nodup := by
  by_cases hs : (alget l a).isSome
  · rw [alset_keys_present l a b hs]
    exact hnd
  · rw [Option.not_isSome_iff_eq_none] at hs
    rw [alset_keys_absent l a b hs]
    refine List.Nodup.append hnd (List.nodup_singleton a) ?_
    rw [alget_eq_none_iff] at hs
    simpa using hs

theorem countP_map_replace (comm : List (Nat × Nat)) (v nc cv : Nat)
    (hnd : (comm.map (fun p => p.1)).Nodup) (hv : alget comm v = some cv)
    (pred : Nat → Bool) :
    (comm.map (fun p => if p.1 = v then (p.1, nc) else p)).countP
        (fun p => pred p.2) + (if pred cv then 1 else 0) =
      comm.countP (fun p => pred p.2) + (if pred nc then 1 else 0) := by
  induction comm with
  | nil => cases hv
  | cons q t ih =>
    obtain ⟨x, y⟩ := q
    rw [List.map_cons, List.nodup_cons] at hnd
    rw [List.map_cons]
    by_cases hxv : x = v
    · rw [alget_cons, if_pos hxv] at hv
      have hycv : y = cv := Option.some.inj hv
      subst hycv
      have hhd : (if ((x, y) : Nat × Nat).1 = v then (((x, y) : Nat × Nat).1, nc)
          else (x, y)) = (x, nc) := by
        simp [hxv]
      have htid : t.map (fun p => if p.1 = v then (p.1, nc) else p) = t := by
        conv_rhs => rw [← List.map_id t]
        apply List.map_congr_left
        intro p hp
        have hpv : p.1 ≠ v := by
          intro hh
          exact hnd.1 (hxv ▸ hh ▸ List.mem_map.mpr ⟨p, hp, rfl⟩)
        simp [hpv, id]
      rw [hhd, htid, List.countP_cons, List.countP_cons]
      simp only
      omega
    · rw [alget_cons, if_neg hxv] at hv
      have hhd : (if ((x, y) : Nat × Nat).1 = v then (((x, y) : Nat × Nat).1, nc)
          else (x, y)) = (x, y) := by
        simp [hxv]
      rw [hhd, List.countP_cons, List.countP_cons]
      have hrec := ih hnd.2 hv
      simp only at hrec ⊢
      omega

theorem countP_alset_insert (comm : List (Nat × Nat)) (v nc : Nat)
    (hv : alget comm v = none) (pred : Nat → Bool) :
    (alset comm v nc).countP (fun p => pred p.2) =
      comm.countP (fun p => pred p.2) + (if pred nc then 1 else 0) := by
  rw [alset_absent_eq comm v nc hv, List.countP_append]
  simp [List.countP_cons]

/-! ## Invariant preservation through one vertex update -/

theorem Inv_reassign_assigned (s : FluidState) (v cv nc : Nat) (m m2 : ℤ)
    (t2 : Nat) (hinv : Inv s) (hv : alget s.comm v = some cv)
    (hncv : nc ≠ cv) (hm : m = s.cnt cv - 1)
    (hm2 : m2 = fupd s.cnt cv m nc + 1) :
    Inv { comm := alset s.comm v nc,
          cnt := fupd (fupd s.cnt cv m) nc m2,
          dens := fupd (fupd s.dens cv (qDiv max_density (Rat.divInt m 1))) nc
            (qDiv max_density (Rat.divInt m2 1)),
          t := t2 } := by
  have hpres : (alget s.comm v).isSome = true := by
    rw [hv]
    rfl
  have hcomm2 : alset s.comm v nc =
      s.comm.map (fun p => if p.1 = v then (p.1, nc) else p) :=
    alset_present_eq s.comm v nc hpres
  refine ⟨alset_keys_nodup s.comm v nc hinv.1, ?_, ?_⟩
  · intro c
    have hrepl := countP_map_replace s.comm v nc cv hinv.1 hv
      (fun x => decide (x = c))
    have hold := hinv.2.1 c
    have holdcv := hinv.2.1 cv
    have holdnc := hinv.2.1 nc
    have hpos : 0 < s.comm.countP (fun p => decide (p.2 = cv)) :=
      List.countP_pos_iff.mpr ⟨(v, cv), mem_of_alget s.comm v cv hv, by simp⟩
    simp only [hcomm2]
    by_cases hcnc : c = nc
    · subst hcnc
      have hx1 : ¬ (cv = c) := fun hh => hncv hh.symm
      have h1 : (if decide (cv = c) = true then 1 else 0) = 0 := by
        simp [hx1]
      have h2 : (if decide (c = c) = true then 1 else 0) = 1 := by
        simp
      rw [h1, h2] at hrepl
      have hfu : fupd (fupd s.cnt cv m) c m2 c = m2 := by
        simp [fupd]
      have hfu2 : fupd s.cnt cv m c = s.cnt c := by
        simp [fupd, hncv]
      rw [hfu, hm2, hfu2, hold]
      omega
    · by_cases hccv : c = cv
      · subst hccv
        have h1 : (if decide (c = c) = true then 1 else 0) = 1 := by
          simp
        have hx2 : ¬ (nc = c) := fun hh => hcnc hh.symm
        have h2 : (if decide (nc = c) = true then 1 else 0) = 0 := by
          simp [hx2]
        rw [h1, h2] at hrepl
        have hfu : fupd (fupd s.cnt c m) nc m2 c = m := by
          simp [fupd, hcnc]
        rw [hfu, hm, holdcv]
        omega
      · have hx1 : ¬ (cv = c) := fun hh => hccv hh.symm
        have hx2 : ¬ (nc = c) := fun hh => hcnc hh.symm
        have h1 : (if decide (cv = c) = true then 1 else 0) = 0 := by
          simp [hx1]
        have h2 : (if decide (nc = c) = true then 1 else 0) = 0 := by
          simp [hx2]
        rw [h1, h2] at hrepl
        have hfu : fupd (fupd s.cnt cv m) nc m2 c = s.cnt c := by
          simp [fupd, hcnc, hccv]
        rw [hfu, hold]
        omega
  · intro c hposc
    simp only at hposc ⊢
    by_cases hcnc : c = nc
    · subst hcnc
      have hfu : fupd (fupd s.cnt cv m) c m2 c = m2 := by
        simp [fupd]
      have hfd : fupd (fupd s.dens cv (qDiv max_density (Rat.divInt m 1))) c
          (qDiv max_density (Rat.divInt m2 1)) c =
            qDiv max_density (Rat.divInt m2 1) := by
        simp [fupd]
      rw [hfu, hfd, qdiv_divInt_one]
    · by_cases hccv : c = cv
      · subst hccv
        have hfu : fupd (fupd s.cnt c m) nc m2 c = m := by
          simp [fupd, hcnc]
        have hfd : fupd (fupd s.dens c (qDiv max_density (Rat.divInt m 1))) nc
            (qDiv max_density (Rat.divInt m2 1)) c =
              qDiv max_density (Rat.divInt m 1) := by
          simp [fupd, hcnc]
        rw [hfu, hfd, qdiv_divInt_one]
      · have hfu : fupd (fupd s.cnt cv m) nc m2 c = s.cnt c := by
          simp [fupd, hcnc, hccv]
        have hfd : fupd (fupd s.dens cv (qDiv max_density (Rat.divInt m 1))) nc
            (qDiv max_density (Rat.divInt m2 1)) c = s.dens c := by
          simp [fupd, hcnc, hccv]
        rw [hfu] at hposc
        rw [hfu, hfd]
        exact hinv.2.2 c hposc

theorem Inv_insert_unassigned (s : FluidState) (v nc : Nat) (m2 : ℤ)
    (t2 : Nat) (hinv : Inv s) (hv : alget s.comm v = none)
    (hm2 : m2 = s.cnt nc + 1) :
    Inv { comm := alset s.comm v nc,
          cnt := fupd s.cnt nc m2,
          dens := fupd s.dens nc (qDiv max_density (Rat.divInt m2 1)),
          t := t2 } := by
  refine ⟨alset_keys_nodup s.comm v nc hinv.1, ?_, ?_⟩
  · intro c
    have hins := countP_alset_insert s.comm v nc hv (fun x => decide (x = c))
    have hold := hinv.2.1 c
    have holdnc := hinv.2.1 nc
    simp only
    by_cases hcnc : c = nc
    · subst hcnc
      have h2 : (if decide (c = c) = true then 1 else 0) = 1 := by
        simp
      rw [h2] at hins
      have hfu : fupd s.cnt c m2 c = m2 := by
        simp [fupd]
      rw [hfu, hins, hm2, hold]
      omega
    · have hx2 : ¬ (nc = c) := fun hh => hcnc hh.symm
      have h2 : (if decide (nc = c) = true then 1 else 0) = 0 := by
        simp [hx2]
      rw [h2] at hins
      have hfu : fupd s.cnt nc m2 c = s.cnt c := by
        simp [fupd, hcnc]
      rw [hfu, hins, hold]
      omega
  · intro c hposc
    simp only at hposc ⊢
    by_cases hcnc : c = nc
    · subst hcnc
      have hfu : fupd s.cnt c m2 c = m2 := by
        simp [fupd]
      have hfd : fupd s.dens c (qDiv max_density (Rat.divInt m2 1)) c =
          qDiv max_density (Rat.divInt m2 1) := by
        simp [fupd]
      rw [hfu, hfd, qdiv_divInt_one]
    · have hfu : fupd s.cnt nc m2 c = s.cnt c := by
        simp [fupd, hcnc]
      have hfd : fupd s.dens nc (qDiv max_density (Rat.divInt m2 1)) c =
          s.dens c := by
        simp [fupd, hcnc]
      rw [hfu] at hposc
      rw [hfu, hfd]
      exact hinv.2.2 c hposc

theorem cnt_nonneg (s : FluidState) (hinv : Inv s) (c : Nat) :
    0 ≤ s.cnt c := by
  rw [hinv.2.1 c]
  exact_mod_cast Nat.zero_le _

/-- Processing any vertex from a state satisfying the invariant neither
raises (in particular the `ZeroDivisionError` guards never fire, because a
community is never emptied: its last member always keeps it) nor breaks the
invariant. -/
theorem processVertex_ok (G : Graph) (choose : Nat → Nat) (s : FluidState)
    (v : Nat) (hinv : Inv s) :
    ∃ s2 ch, processVertex G choose s v = .ok (s2, ch) ∧ Inv s2 := by
  unfold processVertex
  dsimp only
  split
  · exact ⟨s, false, rfl, hinv⟩
  · rename_i hemp
    have hne : buildCounter G s v ≠ [] := by
      intro hh
      rw [hh] at hemp
      exact hemp rfl
    have hbne : bestComs (buildCounter G s v) ≠ [] := bestComs_ne_nil _ hne
    split
    · rename_i cv hv
      split
      · exact ⟨s, false, rfl, hinv⟩
      · rename_i hnbest
        set nc := ((bestComs (buildCounter G s v)).get?
          (choose s.t % (bestComs (buildCounter G s v)).length)).getD 0
          with hnc
        have hcp : 0 < s.cnt cv := cnt_pos_of_assigned s v cv hinv hv
        have hm0 : ¬ (s.cnt cv - 1 = 0) := by
          intro hh
          have h1 : s.cnt cv = 1 := by omega
          exact hnbest (singleton_in_best G s v cv hinv hv h1)
        rw [if_neg hm0]
        have hncmem : nc ∈ bestComs (buildCounter G s v) := by
          rw [hnc]
          exact pick_mem _ _ hbne
        have hncv : nc ≠ cv := fun hh => hnbest (hh ▸ hncmem)
        have hm2 : ¬ (fupd s.cnt cv (s.cnt cv - 1) nc + 1 = 0) := by
          have h0 : 0 ≤ fupd s.cnt cv (s.cnt cv - 1) nc := by
            rw [fupd]
            by_cases hh : nc = cv
            · rw [if_pos hh]
              omega
            · rw [if_neg hh]
              exact cnt_nonneg s hinv nc
          omega
        rw [if_neg hm2]
        exact ⟨_, true, rfl,
          Inv_reassign_assigned s v cv nc _ _ _ hinv hv hncv rfl rfl⟩
    · rename_i hv
      set nc := ((bestComs (buildCounter G s v)).get?
        (choose s.t % (bestComs (buildCounter G s v)).length)).getD 0
        with hnc
      have hm2 : ¬ (s.cnt nc + 1 = 0) := by
        have h0 : 0 ≤ s.cnt nc := cnt_nonneg s hinv nc
        omega
      rw [if_neg hm2]
      exact ⟨_, true, rfl, Inv_insert_unassigned s v nc _ _ hinv hv rfl⟩

theorem sweepVerts_ok (G : Graph) (choose : Nat → Nat) (order : List Nat)
    (s : FluidState) (cont : Bool) (hinv : Inv s) :
    ∃ s2 c2, sweepVerts G choose order s cont = .ok (s2, c2) ∧ Inv s2 := by
  induction order generalizing s cont with
  | nil => exact ⟨s, cont, rfl, hinv⟩
  | cons v vs ih =>
    rcases processVertex_ok G choose s v hinv with ⟨s1, ch, heq, hinv1⟩
    rw [sweepVerts, heq]
    exact ih s1 (cont || ch) hinv1

theorem fluidLoop_ok (G : Graph) (choose : Nat → Nat)
    (sweepOrder : Nat → List Nat) (max_iter : Nat) (fuel ic : Nat)
    (s : FluidState) (hinv : Inv s) :
    ∃ sf n conv,
      fluidLoop G choose sweepOrder max_iter fuel ic s = .ok (sf, n, conv) ∧
        Inv sf := by
  induction fuel generalizing ic s with
  | zero => exact ⟨s, ic, false, rfl, hinv⟩
  | succ fuel ih =>
    rcases sweepVerts_ok G choose (sweepOrder ic) s false hinv with
      ⟨s2, cont, heq, hinv2⟩
    rw [fluidLoop, heq]
    dsimp only
    by_cases hcont : cont = true
    · rw [hcont]
      by_cases hiter : ic + 1 > max_iter
      · rw [if_neg (by simp), if_pos hiter]
        exact ⟨s2, ic + 1, false, rfl, hinv2⟩
      · rw [if_neg (by simp), if_neg hiter]
        exact ih (ic + 1) s2 hinv2
    · have hcf : cont = false := by
        cases cont
        · rfl
        · exact absurd rfl hcont
      rw [hcf]
      rw [if_pos (by simp)]
      exact ⟨s2, ic + 1, true, rfl, hinv2⟩

theorem fluidLoop_sweeps_le (G : Graph) (choose : Nat → Nat)
    (sweepOrder : Nat → List Nat) (max_iter : Nat) (fuel ic : Nat)
    (s sf : FluidState) (n : Nat) (conv : Bool)
    (h : fluidLoop G choose sweepOrder max_iter fuel ic s = .ok (sf, n, conv))
    (hic : ic ≤ max_iter) : n ≤ max_iter + 1 := by
  induction fuel generalizing ic s with
  | zero =>
    cases h
    omega
  | succ fuel ih =>
    rw [fluidLoop] at h
    cases hs : sweepVerts G choose (sweepOrder ic) s false with
    | error e =>
      rw [hs] at h
      cases h
    | ok p =>
      obtain ⟨s2, cont⟩ := p
      rw [hs] at h
      dsimp only at h
      by_cases hcont : cont = true
      · rw [hcont] at h
        by_cases hiter : ic + 1 > max_iter
        · rw [if_neg (by simp), if_pos hiter] at h
          cases h
          omega
        · rw [if_neg (by simp), if_neg hiter] at h
          exact ih (ic + 1) s2 h (by omega)
      · have hcf : cont = false := by
          cases cont
          · rfl
          · exact absurd rfl hcont
        rw [hcf, if_pos (by simp)] at h
        cases h
        omega

theorem initState_Inv (initOrder : List Nat) (k : Nat)
    (hlen : k ≤ initOrder.length) (hnd : initOrder.Nodup) :
    Inv (initState initOrder k) := by
  have hseedlen : (initOrder.take k).length = k := by
    rw [List.length_take]
    omega
  have hzlen : (initOrder.take k).length ≤ (List.range k).length := by
    rw [hseedlen, List.length_range]
  have hkeys : (((initOrder.take k).zip (List.range k)).map
      (fun p => p.1)) = initOrder.take k := by
    exact List.map_fst_zip _ _ hzlen
  have hvals : (((initOrder.take k).zip (List.range k)).map
      (fun p => p.2)) = List.range k := by
    refine List.map_snd_zip _ _ ?_
    rw [hseedlen, List.length_range]
  refine ⟨?_, ?_, ?_⟩
  · rw [initState]
    simp only
    rw [hkeys]
    exact hnd.sublist (List.take_sublist k initOrder)
  · intro c
    rw [initState]
    simp only
    have hcnt : ((initOrder.take k).zip (List.range k)).countP
        (fun p => decide (p.2 = c)) =
          (List.range k).countP (fun x => decide (x = c)) := by
      conv_rhs => rw [← hvals]
      rw [List.countP_map]
      rfl
    rw [hcnt]
    by_cases hck : c < k
    · rw [if_pos hck]
      have hcmem : c ∈ List.range k := List.mem_range.mpr hck
      have h1 : (List.range k).countP (fun x => decide (x = c)) = 1 := by
        have hcount : (List.range k).count c = 1 :=
          List.count_eq_one_of_mem (List.nodup_range k) hcmem
        rw [← hcount, List.count]
        apply List.countP_congr
        intro x _
        constructor
        · intro hx
          simp only [decide_eq_true_eq] at hx
          simp [hx]
        · intro hx
          simp only [beq_iff_eq] at hx
          simp [hx]
      rw [h1]
      rfl
    · rw [if_neg hck]
      have h0 : (List.range k).countP (fun x => decide (x = c)) = 0 := by
        rw [List.countP_eq_zero]
        intro x hx
        simp only [decide_eq_true_eq]
        intro hxc
        exact hck (hxc ▸ List.mem_range.mp hx)
      rw [h0]
      rfl
  · intro c hpos
    rw [initState] at hpos ⊢
    simp only at hpos ⊢
    by_cases hck : c < k
    · have e1 : (if c < k then (1 : ℚ) else 0) = 1 := if_pos hck
      have e2 : (if c < k then (1 : ℤ) else 0) = 1 := if_pos hck
      rw [e1, e2]
      norm_num
    · have e2 : (if c < k then (1 : ℤ) else 0) = 0 := if_neg hck
      rw [e2] at hpos
      omega

/-- C8 amended: for every valid input (positive k at most the node count,
connected undirected graph, the initial shuffle a permutation of the
nodes), `asyn_fluidc_run` terminates with a normal result — no exception,
in particular no `ZeroDivisionError`, ever escapes the loop — after at most
`max_iter + 1` sweeps (the source checks `iter_count > max_iter` only
after completing a sweep, so the bound is one more than the configured
maximum), returning the current partition and densities in both the
Converged and the MaxIterExceeded terminal states. -/
theorem claim_C8_terminates_within_bound (G : Graph) (k : Int)
    (max_iter : Nat) (initOrder : List Nat) (sweepOrder : Nat → List Nat)
    (choose : Nat → Nat) (hk : 0 < k)
    (hconn : is_connected G = .ok true)
    (hkn : k ≤ ((G.nodes.length : Int))) (hnd : G.nodes.Nodup)
    (hperm : initOrder.Perm G.nodes) :
    ∃ r, asyn_fluidc_run G k max_iter initOrder sweepOrder choose = .ok r ∧
      r.sweeps ≤ max_iter + 1 := by
  have hio_nd : initOrder.Nodup := (hperm.nodup_iff).mpr hnd
  have hio_len : initOrder.length = G.nodes.length := hperm.length_eq
  have hkle : k.toNat ≤ initOrder.length := by
    rw [hio_len]
    omega
  have hinv0 : Inv (initState initOrder k.toNat) :=
    initState_Inv initOrder k.toNat hkle hio_nd
  rcases fluidLoop_ok G choose sweepOrder max_iter (max_iter + 1) 0
    (initState initOrder k.toNat) hinv0 with ⟨sf, n, conv, hloop, _⟩
  have hn : n ≤ max_iter + 1 :=
    fluidLoop_sweeps_le G choose sweepOrder max_iter (max_iter + 1) 0
      _ sf n conv hloop (Nat.zero_le max_iter)
  rw [asyn_fluidc_run, if_neg (not_le.mpr hk), hconn]
  dsimp only
  rw [if_neg (not_lt.mpr hkn), hloop]
  exact ⟨_, rfl, hn⟩

/-- Witness for the amended C8 theorem on the 3-path with k = 1 and
`max_iter` 100. -/
theorem claim_C8_witness :
    ((0 : Int) < 1 ∧ is_connected pathGraph3 = .ok true ∧
      (1 : Int) ≤ ((pathGraph3.nodes.length : Int)) ∧
      pathGraph3.nodes.Nodup ∧ List.Perm [0, 1, 2] pathGraph3.nodes) ∧
    (∃ r, asyn_fluidc_run pathGraph3 1 100 [0, 1, 2] (fun _ => [0, 1, 2])
      (fun _ => 0) = .ok r ∧ r.sweeps ≤ 101) :=
  ⟨⟨by decide, by decide, by decide, by decide, by decide⟩,
    claim_C8_terminates_within_bound pathGraph3 1 100 [0, 1, 2]
      (fun _ => [0, 1, 2]) (fun _ => 0) (by decide) (by decide) (by decide)
      (by decide) (by decide)⟩

/-! ## Convergence analysis: a no-change sweep pins the state -/

theorem processVertex_unchanged (G : Graph) (choose : Nat → Nat)
    (s s2 : FluidState) (v : Nat)
    (h : processVertex G choose s v = .ok (s2, false)) : s2 = s := by
  unfold processVertex at h
  dsimp only at h
  split at h
  · cases h
    rfl
  · split at h
    · split at h
      · cases h
        rfl
      · split at h
        · cases h
        · split at h
          · cases h
          · cases h
    · split at h
      · cases h
      · cases h

theorem processVertex_changes (G : Graph) (choose : Nat → Nat)
    (s : FluidState) (v : Nat) (hv : alget s.comm v = none) (u cu : Nat)
    (hu : u ∈ nbrs G v) (hcu : alget s.comm u = some cu) (s2 : FluidState) :
    processVertex G choose s v ≠ .ok (s2, false) := by
  intro h
  have hcount : 0 < (nbrs G v).countP
      (fun x => decide (alget s.comm x = some cu)) :=
    List.countP_pos_iff.mpr ⟨u, hu, by simp [hcu]⟩
  have hsome : (alget (buildCounter G s v) cu).isSome = true :=
    (buildCounter_isSome G s v cu).mpr (Or.inr hcount)
  have hne : buildCounter G s v ≠ [] := alget_ne_nil _ cu hsome
  unfold processVertex at h
  dsimp only at h
  split at h
  · rename_i hemp
    rw [List.isEmpty_iff] at hemp
    exact hne hemp
  · split at h
    · rename_i cv hcv
      rw [hv] at hcv
      cases hcv
    · split at h
      · cases h
      · cases h

theorem sweepVerts_false_elim (G : Graph) (choose : Nat → Nat)
    (order : List Nat) (s : FluidState) (cont : Bool) (s2 : FluidState)
    (h : sweepVerts G choose order s cont = .ok (s2, false)) :
    s2 = s ∧ cont = false ∧
      ∀ v ∈ order, processVertex G choose s v = .ok (s, false) := by
  induction order generalizing s cont with
  | nil =>
    cases h
    exact ⟨rfl, rfl, fun v hv => absurd hv (List.not_mem_nil v)⟩
  | cons v vs ih =>
    rw [sweepVerts] at h
    cases hpv : processVertex G choose s v with
    | error e =>
      rw [hpv] at h
      cases h
    | ok p =>
      obtain ⟨s1, ch⟩ := p
      rw [hpv] at h
      dsimp only at h
      rcases ih s1 (cont || ch) h with ⟨hs2, hcc, hall⟩
      have hch : ch = false ∧ cont = false := by
        constructor
        · cases ch
          · rfl
          · rw [Bool.or_true] at hcc
            cases hcc
        · cases cont
          · rfl
          · rw [Bool.true_or] at hcc
            cases hcc
      have hs1 : s1 = s := by
        refine processVertex_unchanged G choose s s1 v ?_
        rw [hpv, hch.1]
      subst hs1
      refine ⟨hs2, hch.2, fun w hw => ?_⟩
      rcases List.mem_cons.mp hw with rfl | hmem
      · rw [hpv, hch.1]
      · exact hall w hmem

theorem fluidLoop_converged (G : Graph) (choose : Nat → Nat)
    (sweepOrder : Nat → List Nat) (max_iter : Nat) (fuel ic : Nat)
    (s sf : FluidState) (n : Nat)
    (h : fluidLoop G choose sweepOrder max_iter fuel ic s =
      .ok (sf, n, true)) :
    ∃ t, ∀ v ∈ sweepOrder t, processVertex G choose sf v = .ok (sf, false) := by
  induction fuel generalizing ic s with
  | zero => cases h
  | succ fuel ih =>
    rw [fluidLoop] at h
    cases hs : sweepVerts G choose (sweepOrder ic) s false with
    | error e =>
      rw [hs] at h
      cases h
    | ok p =>
      obtain ⟨s2, cont⟩ := p
      rw [hs] at h
      dsimp only at h
      by_cases hcont : cont = true
      · rw [hcont] at h
        by_cases hiter : ic + 1 > max_iter
        · rw [if_neg (by simp), if_pos hiter] at h
          cases h
        · rw [if_neg (by simp), if_neg hiter] at h
          exact ih (ic + 1) s2 h
      · have hcf : cont = false := by
          cases cont
          · rfl
          · exact absurd rfl hcont
        rw [hcf, if_pos (by simp)] at h
        cases h
        rw [hcf] at hs
        rcases sweepVerts_false_elim G choose (sweepOrder ic) s false sf hs
          with ⟨hsf, _, hall⟩
        subst hsf
        exact ⟨ic, hall⟩

/-! ## Assignment is monotone through the loop -/

theorem processVertex_preserves_assigned (G : Graph) (choose : Nat → Nat)
    (s s2 : FluidState) (v : Nat) (ch : Bool)
    (h : processVertex G choose s v = .ok (s2, ch)) (x cx : Nat)
    (hx : alget s.comm x = some cx) : ∃ c2, alget s2.comm x = some c2 := by
  unfold processVertex at h
  dsimp only at h
  split at h
  · cases h
    exact ⟨cx, hx⟩
  · split at h
    · split at h
      · cases h
        exact ⟨cx, hx⟩
      · split at h
        · cases h
        · split at h
          · cases h
          · cases h
            by_cases hxv : x = v
            · subst hxv
              exact ⟨_, alget_alset_self s.comm x _⟩
            · rw [alget_alset_ne s.comm v x _ hxv]
              exact ⟨cx, hx⟩
    · split at h
      · cases h
      · cases h
        by_cases hxv : x = v
        · subst hxv
          exact ⟨_, alget_alset_self s.comm x _⟩
        · rw [alget_alset_ne s.comm v x _ hxv]
          exact ⟨cx, hx⟩

theorem sweepVerts_preserves_assigned (G : Graph) (choose : Nat → Nat)
    (order : List Nat) (s : FluidState) (cont : Bool) (s2 : FluidState)
    (c2 : Bool) (h : sweepVerts G choose order s cont = .ok (s2, c2))
    (x cx : Nat) (hx : alget s.comm x = some cx) :
    ∃ cy, alget s2.comm x = some cy := by
  induction order generalizing s cont cx with
  | nil =>
    cases h
    exact ⟨cx, hx⟩
  | cons v vs ih =>
    rw [sweepVerts] at h
    cases hpv : processVertex G choose s v with
    | error e =>
      rw [hpv] at h
      cases h
    | ok p =>
      obtain ⟨s1, ch⟩ := p
      rw [hpv] at h
      dsimp only at h
      rcases processVertex_preserves_assigned G choose s s1 v ch hpv x cx hx
        with ⟨c1, hc1⟩
      exact ih s1 (cont || ch) h c1 hc1

theorem fluidLoop_preserves_assigned (G : Graph) (choose : Nat → Nat)
    (sweepOrder : Nat → List Nat) (max_iter : Nat) (fuel ic : Nat)
    (s sf : FluidState) (n : Nat) (conv : Bool)
    (h : fluidLoop G choose sweepOrder max_iter fuel ic s = .ok (sf, n, conv))
    (x cx : Nat) (hx : alget s.comm x = some cx) :
    ∃ cy, alget sf.comm x = some cy := by
  induction fuel generalizing ic s cx with
  | zero =>
    cases h
    exact ⟨cx, hx⟩
  | succ fuel ih =>
    rw [fluidLoop] at h
    cases hs : sweepVerts G choose (sweepOrder ic) s false with
    | error e =>
      rw [hs] at h
      cases h
    | ok p =>
      obtain ⟨s2, cont⟩ := p
      rw [hs] at h
      dsimp only at h
      rcases sweepVerts_preserves_assigned G choose (sweepOrder ic) s false s2
        cont hs x cx hx with ⟨c1, hc1⟩
      by_cases hcont : cont = true
      · rw [hcont] at h
        by_cases hiter : ic + 1 > max_iter
        · rw [if_neg (by simp), if_pos hiter] at h
          cases h
          exact ⟨c1, hc1⟩
        · rw [if_neg (by simp), if_neg hiter] at h
          exact ih (ic + 1) s2 h c1 hc1
      · have hcf : cont = false := by
          cases cont
          · rfl
          · exact absurd rfl hcont
        rw [hcf, if_pos (by simp)] at h
        cases h
        exact ⟨c1, hc1⟩

/-! ## Reachability and the undirected adjacency view -/

/-- Walk-reachability over the adjacency view `nbrs`. -/
inductive Reach (G : Graph) : Nat → Nat → Prop
  | refl (v : Nat) : Reach G v v
  | step (u v w : Nat) : Reach G u v → w ∈ nbrs G v → Reach G u w

theorem mem_nbrs_iff (G : Graph) (v u : Nat) :
    u ∈ nbrs G v ↔ (v, u) ∈ G.edges ∨ (u, v) ∈ G.edges := by
  rw [nbrs, List.mem_dedup, List.mem_filterMap]
  constructor
  · rintro ⟨e, he, hfe⟩
    obtain ⟨a, b⟩ := e
    simp only at hfe
    by_cases h1 : a = v
    · rw [if_pos h1] at hfe
      cases hfe
      subst h1
      exact Or.inl he
    · rw [if_neg h1] at hfe
      by_cases h2 : b = v
      · rw [if_pos h2] at hfe
        cases hfe
        subst h2
        exact Or.inr he
      · rw [if_neg h2] at hfe
        cases hfe
  · rintro (he | he)
    · exact ⟨(v, u), he, by simp⟩
    · by_cases huv : u = v
      · subst huv
        exact ⟨(u, u), he, by simp⟩
      · refine ⟨(u, v), he, ?_⟩
        simp [huv]
  
theorem nbrs_symm (G : Graph) (v u : Nat) (h : u ∈ nbrs G v) :
    v ∈ nbrs G u := by
  rw [mem_nbrs_iff] at h ⊢
  exact h.symm

theorem reach_trans (G : Graph) (a b c : Nat) (h1 : Reach G a b)
    (h2 : Reach G b c) : Reach G a c := by
  induction h2 with
  | refl => exact h1
  | step v w hr hw ih => exact Reach.step a v w ih hw

theorem reach_symm (G : Graph) (a b : Nat) (h : Reach G a b) : Reach G b a := by
  induction h with
  | refl => exact Reach.refl a
  | step v w hr hw ih =>
    refine reach_trans G w v a ?_ ih
    exact Reach.step w w v (Reach.refl w) (nbrs_symm G v w hw)

theorem reach_sound (G : Graph) (m : Nat) (vs : List Nat) (x : Nat)
    (hx : x ∈ (expandOnce G)^[m] vs) : ∃ v0 ∈ vs, Reach G v0 x := by
  induction m generalizing vs with
  | zero => exact ⟨x, hx, Reach.refl x⟩
  | succ m ih =>
    rw [Function.iterate_succ_apply] at hx
    rcases ih (expandOnce G vs) hx with ⟨v1, hv1, hr⟩
    rw [expandOnce, List.mem_dedup, List.mem_append] at hv1
    rcases hv1 with hv1 | hv1
    · exact ⟨v1, hv1, hr⟩
    · rcases List.mem_flatMap.mp hv1 with ⟨u, hu, hnb⟩
      refine ⟨u, hu, reach_trans G u v1 x ?_ hr⟩
      exact Reach.step u u v1 (Reach.refl u) hnb

theorem is_connected_elim (G : Graph) (h : is_connected G = .ok true) :
    G.directed = false ∧ ∃ v0 rest, G.nodes = v0 :: rest ∧
      ∀ u ∈ G.nodes, Reach G v0 u := by
  rw [is_connected] at h
  by_cases hdir : G.directed = true
  · rw [if_pos hdir] at h
    cases h
  · have hdf : G.directed = false := by
      cases hG : G.directed
      · rfl
      · exact absurd hG hdir
    rw [if_neg hdir] at h
    cases hn : G.nodes with
    | nil =>
      rw [hn] at h
      cases h
    | cons v0 rest =>
      rw [hn] at h
      dsimp only at h
      refine ⟨hdf, v0, rest, rfl, fun u hu => ?_⟩
      have hall := Except.ok.inj h
      have hu2 : ((reachFrom G v0).contains u) = true := by
        exact List.all_eq_true.mp hall u hu
      have hmem : u ∈ reachFrom G v0 := by
        rw [List.contains_iff_exists_mem_beq] at hu2
        rcases hu2 with ⟨x, hx, hbeq⟩
        have hux : u = x := by
          simpa using hbeq
        exact hux ▸ hx
      rw [reachFrom] at hmem
      rcases reach_sound G G.nodes.length [v0] u hmem with ⟨w, hw, hr⟩
      have hwv : w = v0 := List.mem_singleton.mp hw
      exact hwv ▸ hr

theorem asyn_fluidc_run_ok_elim (G : Graph) (k : Int) (max_iter : Nat)
    (initOrder : List Nat) (sweepOrder : Nat → List Nat) (choose : Nat → Nat)
    (r : RunResult)
    (h : asyn_fluidc_run G k max_iter initOrder sweepOrder choose = .ok r) :
    0 < k ∧ is_connected G = .ok true ∧ k ≤ ((G.nodes.length : Int)) ∧
      ∃ sf n conv, fluidLoop G choose sweepOrder max_iter (max_iter + 1) 0
          (initState initOrder k.toNat) = .ok (sf, n, conv) ∧
        r = { groups := groupsOf sf.comm,
              densities := (List.range k.toNat).map sf.dens,
              sweeps := n, converged := conv } := by
  rw [asyn_fluidc_run] at h
  by_cases hk : k ≤ 0
  · rw [if_pos hk] at h
    cases h
  · rw [if_neg hk] at h
    cases hc : is_connected G with
    | error e =>
      rw [hc] at h
      cases h
    | ok b =>
      rw [hc] at h
      cases b with
      | false =>
        dsimp only at h
        cases h
      | true =>
        dsimp only at h
        by_cases hlen : ((G.nodes.length : Int)) < k
        · rw [if_pos hlen] at h
          cases h
        · rw [if_neg hlen] at h
          cases hloop : fluidLoop G choose sweepOrder max_iter (max_iter + 1)
            0 (initState initOrder k.toNat) with
          | error e =>
            rw [hloop] at h
            cases h
          | ok p =>
            obtain ⟨sf, n, conv⟩ := p
            rw [hloop] at h
            dsimp only at h
            cases h
            exact ⟨by omega, rfl, by omega, sf, n, conv, rfl, rfl⟩

/-! ## From a stable state to full coverage of the node set -/

theorem stable_no_boundary (G : Graph) (choose : Nat → Nat) (sf : FluidState)
    (order : List Nat)
    (hstable : ∀ v ∈ order, processVertex G choose sf v = .ok (sf, false))
    (v : Nat) (hv : v ∈ order) (hnone : alget sf.comm v = none)
    (u : Nat) (hu : u ∈ nbrs G v) : alget sf.comm u = none := by
  cases hcu : alget sf.comm u with
  | none => rfl
  | some cu =>
    exact absurd (hstable v hv)
      (processVertex_changes G choose sf v hnone u cu hu hcu sf)

theorem stable_reach_assigned (G : Graph) (choose : Nat → Nat)
    (sf : FluidState) (order : List Nat)
    (hstable : ∀ v ∈ order, processVertex G choose sf v = .ok (sf, false))
    (hnodes : ∀ v ∈ G.nodes, v ∈ order)
    (hwf : ∀ e ∈ G.edges, e.1 ∈ G.nodes ∧ e.2 ∈ G.nodes)
    (s0 : Nat) (c0 : Nat) (hs0 : alget sf.comm s0 = some c0)
    (v : Nat) (hr : Reach G s0 v) :
    ∃ c, alget sf.comm v = some c := by
  induction hr with
  | refl => exact ⟨c0, hs0⟩
  | step x w hr2 hw ih =>
    rcases ih with ⟨cx, hcx⟩
    have hwnode : w ∈ G.nodes := by
      rcases (mem_nbrs_iff G x w).mp hw with he | he
      · exact (hwf _ he).2
      · exact (hwf _ he).1
    cases hcw : alget sf.comm w with
    | some cw => exact ⟨cw, rfl⟩
    | none =>
      have hxnone : alget sf.comm x = none :=
        stable_no_boundary G choose sf order hstable w (hnodes w hwnode) hcw
          x (nbrs_symm G x w hw)
      rw [hcx] at hxnone
      cases hxnone

/-! ## Each assigned vertex lies in exactly one returned group -/

theorem firstDedup_fold_mem (l : List Nat) (acc : List Nat) (x : Nat) :
    x ∈ l.foldl (fun acc x => if acc.contains x then acc else acc ++ [x])
      acc ↔ x ∈ acc ∨ x ∈ l := by
  induction l generalizing acc with
  | nil => simp
  | cons y t ih =>
    rw [List.foldl_cons, ih]
    by_cases hc : acc.contains y = true
    · rw [if_pos hc]
      have hy : y ∈ acc := by
        have := hc
        rw [List.contains_iff_exists_mem_beq] at this
        rcases this with ⟨z, hz, hbeq⟩
        have : y = z := by
          simpa using hbeq
        exact this ▸ hz
      constructor
      · rintro (h | h)
        · exact Or.inl h
        · exact Or.inr (List.mem_cons_of_mem y h)
      · rintro (h | h)
        · exact Or.inl h
        · rcases List.mem_cons.mp h with rfl | h2
          · exact Or.inl hy
          · exact Or.inr h2
    · rw [if_neg hc]
      constructor
      · rintro (h | h)
        · rcases List.mem_append.mp h with h2 | h2
          · exact Or.inl h2
          · rcases List.mem_singleton.mp h2 with rfl
            exact Or.inr (List.mem_cons_self x t)
        · exact Or.inr (List.mem_cons_of_mem y h)
      · rintro (h | h)
        · exact Or.inl (List.mem_append.mpr (Or.inl h))
        · rcases List.mem_cons.mp h with rfl | h2
          · exact Or.inl (List.mem_append.mpr (Or.inr (List.mem_singleton.mpr rfl)))
          · exact Or.inr h2

theorem firstDedup_fold_nodup (l : List Nat) (acc : List Nat)
    (hacc : acc.Nodup) :
    (l.foldl (fun acc x => if acc.contains x then acc else acc ++ [x])
      acc).Nodup := by
  induction l generalizing acc with
  | nil => exact hacc
  | cons y t ih =>
    rw [List.foldl_cons]
    by_cases hc : acc.contains y = true
    · rw [if_pos hc]
      exact ih acc hacc
    · rw [if_neg hc]
      refine ih _ (List.Nodup.append hacc (List.nodup_singleton y) ?_)
      intro z hz hz2
      rcases List.mem_singleton.mp hz2 with rfl
      apply hc
      rw [List.contains_iff_exists_mem_beq]
      exact ⟨z, hz, by simp⟩

theorem firstDedup_mem (l : List Nat) (x : Nat) :
    x ∈ firstDedup l ↔ x ∈ l := by
  rw [firstDedup, firstDedup_fold_mem]
  simp

theorem firstDedup_nodup (l : List Nat) : (firstDedup l).Nodup :=
  firstDedup_fold_nodup l [] List.nodup_nil

theorem group_contains_iff (comm : List (Nat × Nat)) (c v : Nat) :
    (((comm.filter (fun p => p.2 == c)).map (fun p => p.1)).contains v)
      = true ↔ (v, c) ∈ comm := by
  rw [List.contains_iff_exists_mem_beq]
  constructor
  · rintro ⟨x, hx, hbeq⟩
    have hvx : v = x := by
      simpa using hbeq
    subst hvx
    rcases List.mem_map.mp hx with ⟨p, hp, hpv⟩
    have hpf := List.mem_filter.mp hp
    have hp2 : p.2 = c := by
      simpa using hpf.2
    have hpeq : p = (v, c) := by
      obtain ⟨a, b⟩ := p
      simp only at hpv hp2
      rw [hpv, hp2]
    exact hpeq ▸ hpf.1
  · intro hmem
    refine ⟨v, ?_, by simp⟩
    refine List.mem_map.mpr ⟨(v, c), ?_, rfl⟩
    exact List.mem_filter.mpr ⟨hmem, by simp⟩

theorem groupsOf_exactly_one (comm : List (Nat × Nat))
    (hnd : (comm.map (fun p => p.1)).Nodup) (v cv : Nat)
    (hv : alget comm v = some cv) :
    (groupsOf comm).countP (fun g => g.contains v) = 1 := by
  rw [groupsOf, List.countP_map]
  show (firstDedup (comm.map (fun p => p.2))).countP
    (fun c => ((comm.filter (fun p => p.2 == c)).map
      (fun p => p.1)).contains v) = 1
  have hmemv : (v, cv) ∈ comm := mem_of_alget comm v cv hv
  have hchar : ∀ c ∈ firstDedup (comm.map (fun p => p.2)),
      ((((comm.filter (fun p => p.2 == c)).map (fun p => p.1)).contains v)
        = true) ↔ ((c == cv) = true) := by
    intro c _
    rw [group_contains_iff]
    constructor
    · intro hmem
      have := alget_of_mem_nodup comm (v, c) hnd hmem
      rw [hv] at this
      have hc : cv = c := Option.some.inj this
      simp [hc]
    · intro hbeq
      have hc : c = cv := by
        simpa using hbeq
      exact hc ▸ hmemv
  have hcongr : (firstDedup (comm.map (fun p => p.2))).countP
      (fun c => ((comm.filter (fun p => p.2 == c)).map (fun p => p.1)).contains v)
        = (firstDedup (comm.map (fun p => p.2))).countP (fun c => c == cv) := by
    apply List.countP_congr
    intro c hc
    constructor
    · intro h
      exact (hchar c hc).mp h
    · intro h
      exact (hchar c hc).mpr h
  rw [hcongr]
  have hcvmem : cv ∈ firstDedup (comm.map (fun p => p.2)) := by
    rw [firstDedup_mem]
    exact List.mem_map.mpr ⟨(v, cv), hmemv, rfl⟩
  have := List.count_eq_one_of_mem (firstDedup_nodup (comm.map (fun p => p.2)))
    hcvmem
  rw [← this, List.count]

theorem initState_seed_assigned (s0 : Nat) (io : List Nat) (k : Nat)
    (hk : 0 < k) :
    alget (initState (s0 :: io) k).comm s0 = some 0 := by
  obtain ⟨m, hm⟩ : ∃ m, k = m + 1 := ⟨k - 1, by omega⟩
  rw [initState]
  simp only
  rw [hm, List.take_succ_cons, List.range_succ_eq_map, List.zip_cons_cons,
    alget_cons, if_pos rfl]

/-- C5 amended: whenever a run of the partitioner ends in the Converged
terminal state (the final sweep reassigned no vertex), the returned groups
are an exact partition of the node set: every node of the graph appears in
exactly one group.  The hypotheses state that the input was well-formed
(edges between nodes, distinct nodes, the initialization order a
permutation of the nodes, and every sweep order covering the nodes), which
the source guarantees by shuffling `list(G)`. -/
theorem claim_C5_converged_partition (G : Graph) (k : Int) (max_iter : Nat)
    (initOrder : List Nat) (sweepOrder : Nat → List Nat)
    (choose : Nat → Nat) (r : RunResult)
    (hok : asyn_fluidc_run G k max_iter initOrder sweepOrder choose = .ok r)
    (hconv : r.converged = true) (hnd : G.nodes.Nodup)
    (hwf : ∀ e ∈ G.edges, e.1 ∈ G.nodes ∧ e.2 ∈ G.nodes)
    (hperm : initOrder.Perm G.nodes)
    (hcover : ∀ t, ∀ v ∈ G.nodes, v ∈ sweepOrder t) :
    ∀ v ∈ G.nodes, r.groups.countP (fun g => g.contains v) = 1 := by
  rcases asyn_fluidc_run_ok_elim G k max_iter initOrder sweepOrder choose r
    hok with ⟨hk, hconn, hkle, sf, n, conv, hloop, hr⟩
  subst hr
  have hconvt : conv = true := hconv
  subst hconvt
  -- the invariant holds in the final state (the loop is deterministic)
  have hio_len : initOrder.length = G.nodes.length := hperm.length_eq
  have hkle2 : k.toNat ≤ initOrder.length := by
    omega
  have hinv0 : Inv (initState initOrder k.toNat) :=
    initState_Inv initOrder k.toNat hkle2 ((hperm.nodup_iff).mpr hnd)
  rcases fluidLoop_ok G choose sweepOrder max_iter (max_iter + 1) 0
    (initState initOrder k.toNat) hinv0 with ⟨sf2, n2, conv2, hloop2, hinvf⟩
  rw [hloop] at hloop2
  cases hloop2
  -- the stable sweep produced by convergence
  rcases fluidLoop_converged G choose sweepOrder max_iter (max_iter + 1) 0
    (initState initOrder k.toNat) sf n hloop with ⟨t, hstable⟩
  -- the first seed is assigned initially, hence still assigned finally
  cases hio : initOrder with
  | nil =>
    rw [hio] at hio_len
    simp only [List.length_nil] at hio_len
    omega
  | cons s0 io2 =>
    have hseed0 : alget (initState initOrder k.toNat).comm s0 = some 0 := by
      rw [hio]
      exact initState_seed_assigned s0 io2 k.toNat (by omega)
    rcases fluidLoop_preserves_assigned G choose sweepOrder max_iter
      (max_iter + 1) 0 (initState initOrder k.toNat) sf n true hloop s0 0
      hseed0 with ⟨c0, hc0⟩
    have hs0nodes : s0 ∈ G.nodes := by
      rw [← hperm.mem_iff, hio]
      exact List.mem_cons_self s0 io2
    rcases is_connected_elim G hconn with ⟨_, v0, rest, _, hreach⟩
    intro v hv
    have hrv : Reach G s0 v :=
      reach_trans G s0 v0 v (reach_symm G v0 s0 (hreach s0 hs0nodes))
        (hreach v hv)
    rcases stable_reach_assigned G choose sf (sweepOrder t) hstable
      (hcover t) hwf s0 c0 hc0 v hrv with ⟨c, hcv⟩
    exact groupsOf_exactly_one sf.comm hinvf.1 v c hcv

/-- Witness for the amended C5 theorem: a converged run on the 3-path with
k = 1 whose single group contains every node exactly once. -/
theorem claim_C5_converged_witness :
    (asyn_fluidc_run pathGraph3 1 100 [0, 1, 2] (fun _ => [0, 1, 2])
        (fun _ => 0) =
      .ok { groups := [[0, 1, 2]], densities := [mkRat 1 3], sweeps := 2,
            converged := true }) ∧
    (∀ v ∈ pathGraph3.nodes,
      ([[0, 1, 2]] : List (List Nat)).countP (fun g => g.contains v) = 1) := by
  constructor
  · decide
  · intro v hv
    exact claim_C5_converged_partition pathGraph3 1 100 [0, 1, 2]
      (fun _ => [0, 1, 2]) (fun _ => 0)
      { groups := [[0, 1, 2]], densities := [mkRat 1 3], sweeps := 2,
        converged := true }
      (by decide) (by decide) (by decide) (by decide) (by decide)
      (fun t => by
        show ∀ x ∈ [0, 1, 2], x ∈ [0, 1, 2]
        decide)
      v hv

end Hcga
